import Mathlib

/-!
# Koppel: a verification development

Koppel (`main.go`) is a command line tool with three verbs.  `track <ip>` asks
`http://ip-api.com/json/<ip>` for the location of an address and appends the answer to
the JSON file `ip_info.json`; `list` prints the file as a table; `clear` overwrites it
with an empty list.

The development has three layers.

* `Koppel.Utf8`, `Koppel.Json`: the parts of Go's standard library the program calls
  (`unicode/utf8`, `encoding/json`), specialised to the two struct types of the program.
  A Go `string` is a sequence of bytes, not of characters, so strings are lists of
  bytes (`Bytes`); a byte is a natural number below 256.
  The model follows the sources of the library (Go 1.22).
* `Koppel`: the functions of `main.go`, in state-passing style over a `World` that holds
  the content of `ip_info.json`, what has been printed, and which requests and writes
  have been made.  What the program cannot decide by itself (the answer of the network, a
  failing file system) is given by an `Env`.
* the lemmas, and the theorems on the behaviour of the three commands.
-/

namespace Koppel

/-- A Go `string` or `[]byte`: a sequence of bytes. -/
abbrev Bytes := List Nat

/-- The bytes of an ASCII string literal of the source. -/
def ascii (s : String) : Bytes := s.toList.map Char.toNat

/-- Results of fallible calls can be compared. -/
instance instDecidableEqExcept {ε α : Type} [DecidableEq ε] [DecidableEq α] :
    DecidableEq (Except ε α)
  | .ok a, .ok b =>
    if h : a = b then isTrue (congrArg Except.ok h) else isFalse (fun e => h (Except.ok.inj e))
  | .error a, .error b =>
    if h : a = b then isTrue (congrArg Except.error h)
    else isFalse (fun e => h (Except.error.inj e))
  | .ok _, .error _ => isFalse (fun e => Except.noConfusion e)
  | .error _, .ok _ => isFalse (fun e => Except.noConfusion e)

/-! ## unicode/utf8 -/

namespace Utf8

/-- The rune `utf8.RuneError`, U+FFFD. -/
def RuneError : Nat := 0xFFFD

/-- The tables `first` and `acceptRanges` of `unicode/utf8`: for a leading byte of a
multi-byte sequence, the length of the sequence and the range accepted for its second
byte.  `none` for the bytes that cannot start a multi-byte sequence. -/
def acceptRange (b0 : Nat) : Option (Nat × Nat × Nat) :=
  if 0xC2 ≤ b0 ∧ b0 ≤ 0xDF then some (2, 0x80, 0xBF)
  else if b0 = 0xE0 then some (3, 0xA0, 0xBF)
  else if 0xE1 ≤ b0 ∧ b0 ≤ 0xEC then some (3, 0x80, 0xBF)
  else if b0 = 0xED then some (3, 0x80, 0x9F)
  else if 0xEE ≤ b0 ∧ b0 ≤ 0xEF then some (3, 0x80, 0xBF)
  else if b0 = 0xF0 then some (4, 0x90, 0xBF)
  else if 0xF1 ≤ b0 ∧ b0 ≤ 0xF3 then some (4, 0x80, 0xBF)
  else if b0 = 0xF4 then some (4, 0x80, 0x8F)
  else none

/-- The function `utf8.DecodeRune`: the rune at the front of `s` and its width in bytes.
An invalid encoding gives `(RuneError, 1)`, the empty input `(RuneError, 0)`. -/
def decodeRune : Bytes → Nat × Nat
  | [] => (RuneError, 0)
  | b0 :: rest =>
    if b0 < 0x80 then (b0, 1)
    else
      match acceptRange b0 with
      | none => (RuneError, 1)
      | some (sz, lo, hi) =>
        if rest.length + 1 < sz then (RuneError, 1)
        else
          match rest with
          | [] => (RuneError, 1)
          | b1 :: rest1 =>
            if b1 < lo ∨ hi < b1 then (RuneError, 1)
            else if sz ≤ 2 then (b0 % 32 * 64 + b1 % 64, 2)
            else
              match rest1 with
              | [] => (RuneError, 1)
              | b2 :: rest2 =>
                if b2 < 0x80 ∨ 0xBF < b2 then (RuneError, 1)
                else if sz ≤ 3 then (b0 % 16 * 4096 + b1 % 64 * 64 + b2 % 64, 3)
                else
                  match rest2 with
                  | [] => (RuneError, 1)
                  | b3 :: _ =>
                    if b3 < 0x80 ∨ 0xBF < b3 then (RuneError, 1)
                    else (b0 % 8 * 262144 + b1 % 64 * 4096 + b2 % 64 * 64 + b3 % 64, 4)

/-- The function `utf8.AppendRune` on the empty buffer: the UTF-8 encoding of a rune.
Surrogates and runes above U+10FFFF are encoded as U+FFFD. -/
def encodeRune (r : Nat) : Bytes :=
  if r ≤ 0x7F then [r]
  else if r ≤ 0x7FF then [0xC0 + r / 64, 0x80 + r % 64]
  else if 0x10FFFF < r ∨ (0xD800 ≤ r ∧ r ≤ 0xDFFF) then [0xEF, 0xBF, 0xBD]
  else if r ≤ 0xFFFF then [0xE0 + r / 4096, 0x80 + r / 64 % 64, 0x80 + r % 64]
  else [0xF0 + r / 262144, 0x80 + r / 4096 % 64, 0x80 + r / 64 % 64, 0x80 + r % 64]

/-- A Unicode scalar value: a code point that is not a surrogate. -/
def Scalar (r : Nat) : Prop := r ≤ 0x10FFFF ∧ ¬ (0xD800 ≤ r ∧ r ≤ 0xDFFF)

/-- Valid UTF-8: the concatenation of the encodings of scalar values. -/
def Valid (s : Bytes) : Prop := ∃ rs : List Nat, (∀ r ∈ rs, Scalar r) ∧ s = rs.flatMap encodeRune

/-- The shapes of a multi-byte sequence that `decodeRune` accepts. -/
inductive Accepted (b0 : Nat) (rest : Bytes) : Prop where
  | two (lo hi b1 : Nat) (r : Bytes) (hr : rest = b1 :: r)
      (ha : acceptRange b0 = some (2, lo, hi)) (h1 : lo ≤ b1) (h2 : b1 ≤ hi)
  | three (lo hi b1 b2 : Nat) (r : Bytes) (hr : rest = b1 :: b2 :: r)
      (ha : acceptRange b0 = some (3, lo, hi)) (h1 : lo ≤ b1) (h2 : b1 ≤ hi)
      (h3 : 0x80 ≤ b2) (h4 : b2 ≤ 0xBF)
  | four (lo hi b1 b2 b3 : Nat) (r : Bytes) (hr : rest = b1 :: b2 :: b3 :: r)
      (ha : acceptRange b0 = some (4, lo, hi)) (h1 : lo ≤ b1) (h2 : b1 ≤ hi)
      (h3 : 0x80 ≤ b2) (h4 : b2 ≤ 0xBF) (h5 : 0x80 ≤ b3) (h6 : b3 ≤ 0xBF)

end Utf8

/-! ## encoding/json: writing strings -/

namespace Json

open Utf8

/-- The digit of `n < 16` in the table `"0123456789abcdef"`. -/
def hexDigit (n : Nat) : Nat := if n < 10 then 0x30 + n else 0x57 + n

/-- The table `htmlSafeSet`: the ASCII bytes written as they are inside a JSON string
when HTML escaping is on, which it is for `json.Marshal` and `json.MarshalIndent`. -/
def htmlSafe (b : Nat) : Bool :=
  decide (0x20 ≤ b ∧ b < 0x80 ∧ b ≠ 0x22 ∧ b ≠ 0x26 ∧ b ≠ 0x3C ∧ b ≠ 0x3E ∧ b ≠ 0x5C)

/-- What `appendString` writes for one ASCII byte: the byte itself if it is in
`htmlSafeSet`, else its escape.  (Backspace and form feed have had their short escapes
since Go 1.22; before that they were written with `u` and four digits.  Both forms are
read back as the same byte.) -/
def escapeByte (b : Nat) : Bytes :=
  if htmlSafe b then [b]
  else if b = 0x5C ∨ b = 0x22 then [0x5C, b]
  else if b = 0x08 then [0x5C, 0x62]
  else if b = 0x0C then [0x5C, 0x66]
  else if b = 0x0A then [0x5C, 0x6E]
  else if b = 0x0D then [0x5C, 0x72]
  else if b = 0x09 then [0x5C, 0x74]
  else [0x5C, 0x75, 0x30, 0x30, hexDigit (b / 16), hexDigit (b % 16)]

/-- What `appendString` writes for the rune at the front of `b :: rest`, and the width
of that rune: an ASCII byte is escaped by `escapeByte`; a byte that does not start a
valid encoding becomes the six bytes of the escape for U+FFFD; U+2028 and U+2029 become
their six-byte escapes; every other rune is copied. -/
def quoteStep (b : Nat) (rest : Bytes) : Bytes × Nat :=
  if b < 0x80 then (escapeByte b, 1)
  else
    let cs := decodeRune (b :: rest)
    if cs.1 = RuneError ∧ cs.2 = 1 then ([0x5C, 0x75, 0x66, 0x66, 0x66, 0x64], 1)
    else if cs.1 = 0x2028 ∨ cs.1 = 0x2029 then
      ([0x5C, 0x75, 0x32, 0x30, 0x32, hexDigit (cs.1 % 16)], cs.2)
    else ((b :: rest).take cs.2, cs.2)

/-- The loop of `appendString` between the two quotes.  `skip` counts the bytes of the
rune in progress that are still to be passed over (the loop's `i += size`). -/
def quoteBody : Nat → Bytes → Bytes
  | _, [] => []
  | skip + 1, _ :: rest => quoteBody skip rest
  | 0, b :: rest => (quoteStep b rest).1 ++ quoteBody ((quoteStep b rest).2 - 1) rest

/-- The function `appendString` of `encoding/json` with `escapeHTML = true`: a Go string
as a JSON string literal. -/
def appendString (s : Bytes) : Bytes := 0x22 :: (quoteBody 0 s ++ [0x22])

/-- The string that is read back from the literal `appendString s`: `s` with every
byte that is not part of a valid encoding replaced by U+FFFD ("string values encode as
JSON strings coerced to valid UTF-8"). -/
def coerce : Nat → Bytes → Bytes
  | _, [] => []
  | skip + 1, _ :: rest => coerce skip rest
  | 0, b :: rest =>
    encodeRune (decodeRune (b :: rest)).1 ++ coerce ((decodeRune (b :: rest)).2 - 1) rest

/-! ## encoding/json: reading -/

/-- The value of a hexadecimal digit, in either case. -/
def hexVal (b : Nat) : Option Nat :=
  if 0x30 ≤ b ∧ b ≤ 0x39 then some (b - 0x30)
  else if 0x61 ≤ b ∧ b ≤ 0x66 then some (b - 0x61 + 10)
  else if 0x41 ≤ b ∧ b ≤ 0x46 then some (b - 0x41 + 10)
  else none

/-- The function `getu4`: the number written by a backslash, a `u` and four hexadecimal
digits at the front of the input, if that is what stands there. -/
def getu4 : Bytes → Option Nat
  | c :: u :: h1 :: h2 :: h3 :: h4 :: _ =>
    if c = 0x5C ∧ u = 0x75 then
      match hexVal h1, hexVal h2, hexVal h3, hexVal h4 with
      | some a, some b, some c, some d => some (a * 4096 + b * 256 + c * 16 + d)
      | _, _, _, _ => none
    else none
  | _ => none

/-- One turn of the loop of `unquoteBytes`, at the byte `c` inside a string literal that
is followed by `rest`: the bytes this place stands for, and how many bytes of input it
takes.  `none` where the scanner rejects the literal: a control character, a backslash
that starts no escape.  (The closing quote is handled by `readString`.) -/
def unquoteStep (c : Nat) (rest : Bytes) : Option (Bytes × Nat) :=
  if c = 0x5C then
    match rest with
    | [] => none
    | e :: rest1 =>
      if e = 0x22 ∨ e = 0x5C ∨ e = 0x2F then some ([e], 2)
      else if e = 0x62 then some ([0x08], 2)
      else if e = 0x66 then some ([0x0C], 2)
      else if e = 0x6E then some ([0x0A], 2)
      else if e = 0x72 then some ([0x0D], 2)
      else if e = 0x74 then some ([0x09], 2)
      else if e = 0x75 then
        match getu4 (c :: rest) with
        | none => none
        | some rr =>
          if 0xD800 ≤ rr ∧ rr < 0xE000 then
            match getu4 (rest1.drop 4) with
            | none => some (encodeRune RuneError, 6)
            | some rr1 =>
              if rr < 0xDC00 ∧ 0xDC00 ≤ rr1 ∧ rr1 < 0xE000 then
                some (encodeRune ((rr - 0xD800) * 1024 + (rr1 - 0xDC00) + 0x10000), 12)
              else some (encodeRune RuneError, 6)
          else some (encodeRune rr, 6)
      else none
  else if c = 0x22 ∨ c < 0x20 then none
  else if c < 0x80 then some ([c], 1)
  else some (encodeRune (decodeRune (c :: rest)).1, (decodeRune (c :: rest)).2)

/-- A string literal, read from just after its opening quote: the Go string it stands
for (`unquoteBytes`) and the input after its closing quote.  `skip` counts the bytes of
the escape or rune in progress that are still to be passed over. -/
def readString : Nat → Bytes → Option (Bytes × Bytes)
  | _, [] => none
  | skip + 1, _ :: rest => readString skip rest
  | 0, c :: rest =>
    if c = 0x22 then some ([], rest)
    else
      match unquoteStep c rest with
      | none => none
      | some (piece, n) =>
        match readString (n - 1) rest with
        | none => none
        | some (s, r) => some (piece ++ s, r)

/-- A JSON text as a tree.  A number keeps no value: no field of the program holds one. -/
inductive Value where
  | null
  | bool (b : Bool)
  | number
  | string (s : Bytes)
  | array (xs : List Value)
  | object (members : List (Bytes × Value))

/-- The scanner's `isSpace`. -/
def isSpace (b : Nat) : Bool := decide (b = 0x20 ∨ b = 0x09 ∨ b = 0x0D ∨ b = 0x0A)

/-- The input after leading white space. -/
def skipSpace : Bytes → Bytes
  | [] => []
  | b :: rest => if isSpace b then skipSpace rest else b :: rest

/-- A decimal digit. -/
def isDigit (b : Nat) : Bool := decide (0x30 ≤ b ∧ b ≤ 0x39)

/-- The input after leading digits. -/
def skipDigits : Bytes → Bytes
  | [] => []
  | b :: rest => if isDigit b then skipDigits rest else b :: rest

/-- The exponent of a number, if there is one (scanner states `stateE`, `stateESign`,
`stateE0`): the input after it. -/
def scanExponent : Bytes → Option Bytes
  | [] => some []
  | e :: rest =>
    if e = 0x65 ∨ e = 0x45 then
      match rest with
      | [] => none
      | s :: rest1 =>
        if s = 0x2B ∨ s = 0x2D then
          match rest1 with
          | [] => none
          | d :: rest2 => if isDigit d then some (skipDigits rest2) else none
        else if isDigit s then some (skipDigits rest1) else none
    else some (e :: rest)

/-- The fraction and exponent of a number, if any (scanner states `stateDot`,
`stateDot0`): the input after them. -/
def scanFraction : Bytes → Option Bytes
  | [] => some []
  | p :: rest =>
    if p = 0x2E then
      match rest with
      | [] => none
      | d :: rest1 => if isDigit d then scanExponent (skipDigits rest1) else none
    else scanExponent (p :: rest)

/-- The digits of a number after its sign (scanner states `stateNeg`, `state0`,
`state1`): the input after the number. -/
def scanDigits : Bytes → Option Bytes
  | [] => none
  | d :: rest =>
    if d = 0x30 then scanFraction rest
    else if 0x31 ≤ d ∧ d ≤ 0x39 then scanFraction (skipDigits rest)
    else none

/-- A number: the input after it. -/
def scanNumber : Bytes → Option Bytes
  | [] => none
  | c :: rest => if c = 0x2D then scanDigits rest else scanDigits (c :: rest)

/-- The elements of a non-empty array, read from its first element up to and including
the closing bracket.  `readValue` reads one element; `fuel` bounds the number of
elements and is the length of the input where the function is called. -/
def readElements (readValue : Bytes → Option (Value × Bytes)) :
    Nat → Bytes → Option (List Value × Bytes)
  | 0, _ => none
  | fuel + 1, input =>
    match readValue (skipSpace input) with
    | none => none
    | some (v, rest) =>
      match skipSpace rest with
      | [] => none
      | c :: rest1 =>
        if c = 0x2C then
          match readElements readValue fuel rest1 with
          | none => none
          | some (vs, r) => some (v :: vs, r)
        else if c = 0x5D then some ([v], rest1)
        else none

/-- The members of a non-empty object, read from the quote of its first key up to and
including the closing brace. -/
def readMembers (readValue : Bytes → Option (Value × Bytes)) :
    Nat → Bytes → Option (List (Bytes × Value) × Bytes)
  | 0, _ => none
  | fuel + 1, input =>
    match skipSpace input with
    | [] => none
    | q :: rest =>
      if q = 0x22 then
        match readString 0 rest with
        | none => none
        | some (key, rest1) =>
          match skipSpace rest1 with
          | [] => none
          | colon :: rest2 =>
            if colon = 0x3A then
              match readValue (skipSpace rest2) with
              | none => none
              | some (v, rest3) =>
                match skipSpace rest3 with
                | [] => none
                | c :: rest4 =>
                  if c = 0x2C then
                    match readMembers readValue fuel rest4 with
                    | none => none
                    | some (ms, r) => some ((key, v) :: ms, r)
                  else if c = 0x7D then some ([(key, v)], rest4)
                  else none
            else none
      else none

/-- One JSON value at the front of the input (which does not start with white space),
and the input after it.  The elements of an array and the members of an object are read
by `inner`; it is `none` where the scanner refuses to open another array or object. -/
def readValueWith (inner : Option (Bytes → Option (Value × Bytes))) :
    Bytes → Option (Value × Bytes)
  | [] => none
  | c :: rest =>
    if c = 0x22 then
      match readString 0 rest with
      | none => none
      | some (s, r) => some (Value.string s, r)
    else if c = 0x7B then
      match inner with
      | none => none
      | some readValue =>
        match skipSpace rest with
        | [] => none
        | c1 :: rest1 =>
          if c1 = 0x7D then some (Value.object [], rest1)
          else
            match readMembers readValue rest.length (c1 :: rest1) with
            | none => none
            | some (ms, r) => some (Value.object ms, r)
    else if c = 0x5B then
      match inner with
      | none => none
      | some readValue =>
        match skipSpace rest with
        | [] => none
        | c1 :: rest1 =>
          if c1 = 0x5D then some (Value.array [], rest1)
          else
            match readElements readValue rest.length (c1 :: rest1) with
            | none => none
            | some (vs, r) => some (Value.array vs, r)
    else if c = 0x74 then
      match rest with
      | 0x72 :: 0x75 :: 0x65 :: r => some (Value.bool true, r)
      | _ => none
    else if c = 0x66 then
      match rest with
      | 0x61 :: 0x6C :: 0x73 :: 0x65 :: r => some (Value.bool false, r)
      | _ => none
    else if c = 0x6E then
      match rest with
      | 0x75 :: 0x6C :: 0x6C :: r => some (Value.null, r)
      | _ => none
    else
      match scanNumber (c :: rest) with
      | none => none
      | some r => some (Value.number, r)

/-- One JSON value at the front of the input.  `depth` is the number of arrays and
objects that may still be opened inside one another: the scanner gives up beyond
`maxNestingDepth`. -/
def readValue : Nat → Bytes → Option (Value × Bytes)
  | 0 => readValueWith none
  | depth + 1 => readValueWith (some (readValue depth))

/-- The scanner's `maxNestingDepth`. -/
def maxNestingDepth : Nat := 10000

/-- The function `checkValid` together with the reading of the text: the tree of a
syntactically valid JSON text, `none` for any other input. -/
def parse (data : Bytes) : Option Value :=
  match readValue maxNestingDepth (skipSpace data) with
  | none => none
  | some (v, rest) =>
    match skipSpace rest with
    | [] => some v
    | _ :: _ => none

/-- Every string value in the tree is valid UTF-8. -/
inductive Value.WellFormed : Value → Prop where
  | null : Value.WellFormed Value.null
  | bool (b : Bool) : Value.WellFormed (Value.bool b)
  | number : Value.WellFormed Value.number
  | string (s : Bytes) (h : Valid s) : Value.WellFormed (Value.string s)
  | array (xs : List Value) (h : ∀ x ∈ xs, Value.WellFormed x) : Value.WellFormed (Value.array xs)
  | object (ms : List (Bytes × Value)) (h : ∀ m ∈ ms, Value.WellFormed m.2) :
      Value.WellFormed (Value.object ms)

/-- An encoding `E` of the value `v`, as the reader `pv` sees it. -/
structure Reads (pv : Bytes → Option (Value × Bytes)) (E : Bytes) (v : Value) : Prop where
  read : ∀ tl, pv (E ++ tl) = some (v, tl)
  start : ∀ tl, skipSpace (E ++ tl) = E ++ tl

end Json

/-! ## The data of the program -/

/-- The struct `IPInfo` of `main.go`. -/
structure IPInfo where
  IP : Bytes := []
  City : Bytes := []
  Region : Bytes := []
  Country : Bytes := []
  Location : Bytes := []
  ISP : Bytes := []
deriving DecidableEq, Repr

/-- The struct `IPList` of `main.go`.  Its field is a Go slice: `none` is the nil slice,
`some []` an empty slice that is not nil; the two differ when written as JSON. -/
structure IPList where
  IPs : Option (List IPInfo) := none
deriving DecidableEq, Repr

/-- The elements of the slice, `ipList.IPs[0], ..., ipList.IPs[len-1]`. -/
def IPList.records (l : IPList) : List IPInfo := l.IPs.getD []

/-- Go's `append(s, x)` on a slice that may be nil. -/
def goAppend (s : Option (List IPInfo)) (x : IPInfo) : Option (List IPInfo) :=
  some (s.getD [] ++ [x])

/-- The errors the library calls of the program return; what they say is not modelled. -/
inductive GoError where
  | notExist
  | pathError (code : Nat)
  | netError (code : Nat)
  | syntaxError
  | unmarshalTypeError
deriving DecidableEq, Repr

namespace Json

/-- The fields of `IPInfo`, in the order of the struct. -/
inductive Field where
  | ip | city | region | country | location | isp
deriving DecidableEq, Repr

/-- The JSON name of a field, from its struct tag. -/
def Field.name : Field → Bytes
  | .ip => ascii "ip"
  | .city => ascii "city"
  | .region => ascii "region"
  | .country => ascii "country"
  | .location => ascii "location"
  | .isp => ascii "isp"

/-- All fields, in the order of the struct. -/
def Field.all : List Field := [.ip, .city, .region, .country, .location, .isp]

/-- Reading a field of a record. -/
def Field.get (r : IPInfo) : Field → Bytes
  | .ip => r.IP
  | .city => r.City
  | .region => r.Region
  | .country => r.Country
  | .location => r.Location
  | .isp => r.ISP

/-- Writing a field of a record. -/
def Field.set (r : IPInfo) (s : Bytes) : Field → IPInfo
  | .ip => { r with IP := s }
  | .city => { r with City := s }
  | .region => { r with Region := s }
  | .country => { r with Country := s }
  | .location => { r with Location := s }
  | .isp => { r with ISP := s }

/-- The function `foldName`: the key under which a name is looked up when no field has
exactly that name.  ASCII letters go to upper case, the two runes outside ASCII whose
case folding is an ASCII letter (U+212A, U+017F) go to that letter; any other rune folds
to a rune outside ASCII, which no field name contains, and is left as it is.  `skip`
counts the bytes of the rune in progress that are still to be passed over. -/
def foldName : Nat → Bytes → Bytes
  | _, [] => []
  | skip + 1, _ :: rest => foldName skip rest
  | 0, c :: rest =>
    if c = 0xE2 ∧ rest.take 2 = [0x84, 0xAA] then 0x4B :: foldName 2 rest
    else if c = 0xC5 ∧ rest.take 1 = [0xBF] then 0x53 :: foldName 1 rest
    else (if 0x61 ≤ c ∧ c ≤ 0x7A then c - 0x20 else c) :: foldName 0 rest

/-- The field a key of an object is stored in: the field with exactly that name, else
the field whose name is the same up to case (`byExactName`, `byFoldedName`). -/
def lookupField (key : Bytes) : Option Field :=
  match Field.all.find? (fun f => decide (f.name = key)) with
  | some f => some f
  | none => Field.all.find? (fun f => decide (foldName 0 f.name = foldName 0 key))

/-- Storing a JSON value in a Go string (`literalStore`): a string is stored, `null`
leaves the field as it is, anything else is a type error that is saved while decoding
goes on.  The result is the field and whether an error was saved. -/
def storeString (v : Value) (old : Bytes) : Bytes × Bool :=
  match v with
  | .string s => (s, false)
  | .null => (old, false)
  | _ => (old, true)

/-- Storing one member of an object in a record; a member with an unknown key is
skipped. -/
def storeMember (acc : IPInfo × Bool) (m : Bytes × Value) : IPInfo × Bool :=
  match lookupField m.1 with
  | none => acc
  | some f =>
    (f.set acc.1 (storeString m.2 (f.get acc.1)).1,
      acc.2 || (storeString m.2 (f.get acc.1)).2)

/-- Storing a JSON value in an `IPInfo`. -/
def storeIPInfo (v : Value) (old : IPInfo) : IPInfo × Bool :=
  match v with
  | .object ms => ms.foldl storeMember (old, false)
  | .null => (old, false)
  | _ => (old, true)

/-- Storing the elements of an array in a slice whose elements so far are `old`: each
element is stored in the element already there, or in a zero record where the slice was
shorter.  The slice has elements already only when the key `ips` occurs twice in one
document; what an earlier, longer array may have left in the capacity of the slice is
not modelled. -/
def storeElements : List Value → List IPInfo → List IPInfo × Bool
  | [], _ => ([], false)
  | v :: vs, old =>
    ((storeIPInfo v (old.headD {})).1 :: (storeElements vs old.tail).1,
      (storeIPInfo v (old.headD {})).2 || (storeElements vs old.tail).2)

/-- Storing a JSON value in a `[]IPInfo`: an array gives a slice that is not nil, `null`
the nil slice. -/
def storeSlice (v : Value) (old : Option (List IPInfo)) : Option (List IPInfo) × Bool :=
  match v with
  | .array vs => (some (storeElements vs (old.getD [])).1, (storeElements vs (old.getD [])).2)
  | .null => (none, false)
  | _ => (old, true)

/-- Storing one member of an object in an `IPList`, whose only field is `ips`. -/
def storeListMember (acc : IPList × Bool) (m : Bytes × Value) : IPList × Bool :=
  if m.1 = ascii "ips" ∨ foldName 0 m.1 = foldName 0 (ascii "ips") then
    ({ IPs := (storeSlice m.2 acc.1.IPs).1 }, acc.2 || (storeSlice m.2 acc.1.IPs).2)
  else acc

/-- Storing a JSON value in an `IPList`. -/
def storeIPList (v : Value) (old : IPList) : IPList × Bool :=
  match v with
  | .object ms => ms.foldl storeListMember (old, false)
  | .null => (old, false)
  | _ => (old, true)

/-- The call `json.Unmarshal(data, &ipInfo)` on a zero `ipInfo`: a syntax error if the
text is not JSON, a type error if some value did not fit its field, else the record. -/
def unmarshalIPInfo (data : Bytes) : Except GoError IPInfo :=
  match parse data with
  | none => .error .syntaxError
  | some v =>
    if (storeIPInfo v {}).2 then .error .unmarshalTypeError else .ok (storeIPInfo v {}).1

/-- The call `json.Unmarshal(data, &ipList)` on a zero `ipList`. -/
def unmarshalIPList (data : Bytes) : Except GoError IPList :=
  match parse data with
  | none => .error .syntaxError
  | some v =>
    if (storeIPList v {}).2 then .error .unmarshalTypeError else .ok (storeIPList v {}).1

/-- A line break followed by the indentation of nesting level `n`, two spaces a level. -/
def newline (n : Nat) : Bytes := 0x0A :: List.replicate (2 * n) 0x20

/-- One member `"name": "value"` of a record, on a line of its own at level 3. -/
def encodeField (r : IPInfo) (f : Field) : Bytes :=
  newline 3 ++ appendString f.name ++ ascii ": " ++ appendString (f.get r)

/-- A record as an indented JSON object at level 2. -/
def encodeIPInfo (r : IPInfo) : Bytes :=
  ascii "\x7b" ++ encodeField r .ip ++ ascii "," ++ encodeField r .city ++ ascii ","
    ++ encodeField r .region ++ ascii "," ++ encodeField r .country ++ ascii ","
    ++ encodeField r .location ++ ascii "," ++ encodeField r .isp ++ newline 2 ++ ascii "\x7d"

/-- The records of a non-empty array after the first, each behind a comma. -/
def encodeMore : List IPInfo → Bytes
  | [] => []
  | r :: rs => ascii "," ++ newline 2 ++ encodeIPInfo r ++ encodeMore rs

/-- A `[]IPInfo` as indented JSON: `null` for the nil slice, `[]` for an empty one. -/
def encodeSlice : Option (List IPInfo) → Bytes
  | none => ascii "null"
  | some [] => ascii "[]"
  | some (r :: rs) =>
    ascii "[" ++ newline 2 ++ encodeIPInfo r ++ encodeMore rs ++ newline 1 ++ ascii "]"

/-- The bytes of `json.MarshalIndent(ipList, "", "  ")`. -/
def encodeIPList (l : IPList) : Bytes :=
  ascii "\x7b" ++ newline 1 ++ appendString (ascii "ips") ++ ascii ": " ++ encodeSlice l.IPs
    ++ newline 0 ++ ascii "\x7d"

/-- The call `json.MarshalIndent(ipList, "", "  ")`.  It can fail for values JSON cannot
hold; a struct of strings is not among them. -/
def marshalIndent (l : IPList) : Except GoError Bytes := .ok (encodeIPList l)

/-! ## What is read back from a written document -/

/-- A record as it is read back from its JSON: every field coerced to valid UTF-8. -/
def coerceInfo (r : IPInfo) : IPInfo :=
  { IP := coerce 0 r.IP, City := coerce 0 r.City, Region := coerce 0 r.Region,
    Country := coerce 0 r.Country, Location := coerce 0 r.Location, ISP := coerce 0 r.ISP }

/-- A collection as it is read back from its JSON. -/
def coerceList (l : IPList) : IPList := { IPs := l.IPs.map (List.map coerceInfo) }

/-- The tree of the JSON object written for a record. -/
def recordValue (r : IPInfo) : Value :=
  Value.object (Field.all.map fun f => (f.name, Value.string (coerce 0 (f.get r))))

/-- The tree of the JSON written for a slice of records. -/
def sliceValue : Option (List IPInfo) → Value
  | none => Value.null
  | some rs => Value.array (rs.map recordValue)

/-- The tree of the JSON document written for a collection. -/
def listValue (l : IPList) : Value := Value.object [(ascii "ips", sliceValue l.IPs)]

end Json

/-! ## The world of the program -/

/-- A table of the package `tablewriter`, as the calls `SetHeader`, `SetBorder` and
`Append` leave it.  How `Render` lays it out is not modelled. -/
structure Table where
  header : List String := []
  border : Bool := true
  rows : List (List Bytes) := []
deriving DecidableEq, Repr

/-- What the program writes to standard output, one item for each printing call. -/
inductive Output where
  | println (s : String)
  | printlnErr (s : String) (e : GoError)
  | render (t : Table)
deriving DecidableEq, Repr

/-- What `http.Get(url)` followed by `ioutil.ReadAll(resp.Body)` comes to. -/
inductive Response where
  | getError (e : GoError)
  | readError (e : GoError)
  | body (b : Bytes)
deriving DecidableEq, Repr

/-- What one run of the program cannot decide by itself: the answer of the network to
each URL, whether reading the store fails although the file is there, and whether
writing the store fails and, if so, in what state the failed write leaves the file. -/
structure Env where
  upstream : Bytes → Response
  readFails : Option GoError := none
  writeFails : Option (GoError × Option Bytes) := none

/-- The state a command runs in: the content of `ip_info.json` in the working
directory (`none` when there is no such file), what has been printed so far, the URLs
that have been asked of the network so far, and how often `ioutil.WriteFile` has been
called so far. -/
structure World where
  file : Option Bytes := none
  out : List Output := []
  requests : List Bytes := []
  writes : Nat := 0
deriving DecidableEq, Repr

/-- The call `fmt.Println(s)`. -/
def World.println (w : World) (s : String) : World :=
  { w with out := w.out ++ [Output.println s] }

/-- The call `fmt.Println(s, err)`. -/
def World.printlnErr (w : World) (s : String) (e : GoError) : World :=
  { w with out := w.out ++ [Output.printlnErr s e] }

/-- The call `ioutil.ReadFile("ip_info.json")`. -/
def readFile (env : Env) (w : World) : Except GoError Bytes × World :=
  match env.readFails with
  | some e => (.error e, w)
  | none =>
    match w.file with
    | none => (.error .notExist, w)
    | some data => (.ok data, w)

/-- The call `ioutil.WriteFile("ip_info.json", data, 0644)`: the error it returns, if
any, and the world after it. -/
def writeFile (env : Env) (data : Bytes) (w : World) : Option GoError × World :=
  match env.writeFails with
  | some (e, left) => (some e, { w with file := left, writes := w.writes + 1 })
  | none => (none, { w with file := some data, writes := w.writes + 1 })

/-- The call `http.Get(url)` followed by `ioutil.ReadAll(resp.Body)`. -/
def httpGet (env : Env) (url : Bytes) (w : World) : Response × World :=
  (env.upstream url, { w with requests := w.requests ++ [url] })

/-- The call `fmt.Sprintf("%s, %s, %s", a, b, c)`. -/
def sprintfLocation (a b c : Bytes) : Bytes := a ++ ascii ", " ++ b ++ ascii ", " ++ c

/-! ## The functions of `main.go` -/

/-- The function `getIPInfo` (lines 87 to 113). -/
def getIPInfo (env : Env) (ip : Bytes) (w : World) : Option IPInfo × World :=
  let url := ascii "http://ip-api.com/json/" ++ ip
  match httpGet env url w with
  | (.getError e, w1) => (none, w1.printlnErr "Failed to retrieve IP information:" e)
  | (.readError e, w1) => (none, w1.printlnErr "Failed to read response body:" e)
  | (.body body, w1) =>
    match Json.unmarshalIPInfo body with
    | .error e => (none, w1.printlnErr "Failed to parse JSON response:" e)
    | .ok ipInfo =>
      let ipInfo := { ipInfo with IP := ip }
      let ipInfo := { ipInfo with
        Location := sprintfLocation ipInfo.City ipInfo.Region ipInfo.Country }
      (some ipInfo, w1)

/-- The function `loadIPList` (lines 132 to 146). -/
def loadIPList (env : Env) (w : World) : IPList × World :=
  match readFile env w with
  | (.error _, w1) => ({}, w1)
  | (.ok data, w1) =>
    match Json.unmarshalIPList data with
    | .error e => ({}, w1.printlnErr "Failed to unmarshal IP list:" e)
    | .ok ipList => (ipList, w1)

/-- The function `saveIPInfo` (lines 115 to 130). -/
def saveIPInfo (env : Env) (ipInfo : IPInfo) (w : World) : World :=
  let (ipList, w1) := loadIPList env w
  let ipList : IPList := { IPs := goAppend ipList.IPs ipInfo }
  match Json.marshalIndent ipList with
  | .error e => w1.printlnErr "Failed to marshal IP information:" e
  | .ok data =>
    match writeFile env data w1 with
    | (some e, w2) => w2.printlnErr "Failed to write IP information to file:" e
    | (none, w2) => w2

/-- The function `clearIPList` (lines 148 to 161): the error it returns, if any. -/
def clearIPList (env : Env) (w : World) : Option GoError × World :=
  let ipList : IPList := {}
  match Json.marshalIndent ipList with
  | .error e => (some e, w)
  | .ok data =>
    match writeFile env data w with
    | (some e, w1) => (some e, w1)
    | (none, w1) => (none, w1)

/-- The cells of the row `renderTable` appends for a record (line 169). -/
def row (ip : IPInfo) : List Bytes := [ip.IP, ip.City, ip.Region, ip.Country, ip.ISP, ip.Location]

/-- The loop of `renderTable` (lines 168 to 170): `table.Append` for each record. -/
def appendRows (table : Table) : List IPInfo → Table
  | [] => table
  | ip :: rest => appendRows { table with rows := table.rows ++ [row ip] } rest

/-- The function `renderTable` (lines 163 to 173). -/
def renderTable (ipList : IPList) (w : World) : World :=
  let table : Table := {}
  let table := { table with header := ["IP", "City", "Region", "Country", "ISP", "Location"] }
  let table := { table with border := false }
  let table := appendRows table ipList.records
  { w with out := w.out ++ [Output.render table] }

/-- The `Run` function of `trackCmd` (lines 40 to 55). -/
def trackCmd (env : Env) (args : List Bytes) (w : World) : World :=
  if args.length ≠ 1 then w.println "Usage: koppel track <ip_address>"
  else
    let ip := args.headD []
    match getIPInfo env ip w with
    | (some ipInfo, w1) =>
      (saveIPInfo env ipInfo w1).println "IP information saved successfully."
    | (none, w1) => w1.println "Failed to retrieve IP information."

/-- The `Run` function of `listCmd` (lines 62 to 70). -/
def listCmd (env : Env) (w : World) : World :=
  let (ipList, w1) := loadIPList env w
  if ipList.records.length = 0 then w1.println "No tracked IP addresses."
  else renderTable ipList w1

/-- The `Run` function of `clearCmd` (lines 77 to 84). -/
def clearCmd (env : Env) (w : World) : World :=
  match clearIPList env w with
  | (some e, w1) => w1.printlnErr "Failed to clear tracked IP list:" e
  | (none, w1) => w1.println "Tracked IP list cleared successfully."

/-! ## Notions used by the theorems -/

open Utf8 Json

/-- Every field of the record is valid UTF-8. -/
def IPInfo.Valid (r : IPInfo) : Prop := ∀ f : Field, Utf8.Valid (f.get r)

/-- Every record of the collection is valid UTF-8. -/
def IPList.Valid (l : IPList) : Prop := ∀ r ∈ l.records, r.Valid

/-- The record the specification expects `track ip` to store when the response decodes
to `d`: the argument as `ip`, the decoded city, region, country and ISP, and the three
of them joined by a comma and a space as `location`. -/
def trackedRecord (ip : Bytes) (d : IPInfo) : IPInfo :=
  { IP := ip, City := d.City, Region := d.Region, Country := d.Country,
    Location := d.City ++ ascii ", " ++ d.Region ++ ascii ", " ++ d.Country, ISP := d.ISP }

/-- The answer of the stub upstream in the scenario of the specification. -/
def stubBody : Bytes :=
  ascii "\x7b\"city\":\"Mountain View\",\"region\":\"CA\",\"country\":\"US\",\"isp\":\"Google\"\x7d"

/-- What `stubBody` decodes to. -/
def stubDecoded : IPInfo :=
  { City := ascii "Mountain View", Region := ascii "CA", Country := ascii "US",
    ISP := ascii "Google" }

/-- An environment in which the upstream answers every request with `stubBody` and the
file system works. -/
def stubEnv : Env := { upstream := fun _ => .body stubBody }

/-- An answer that carries an `ip` and a `location` of its own and no region. -/
def echoBody : Bytes :=
  ascii "\x7b\"ip\":\"1.1.1.1\",\"city\":\"Paris\",\"country\":\"France\",\"location\":\"elsewhere\"\x7d"

/-- What `echoBody` decodes to. -/
def echoDecoded : IPInfo :=
  { IP := ascii "1.1.1.1", City := ascii "Paris", Country := ascii "France",
    Location := ascii "elsewhere" }

/-- An environment in which the upstream answers every request with `echoBody`. -/
def echoEnv : Env := { upstream := fun _ => .body echoBody }

/-- Like `stubEnv`, but every write to the store fails and leaves no file. -/
def failingWriteEnv : Env :=
  { upstream := fun _ => .body stubBody, writeFails := some (.pathError 13, none) }

/-- An environment in which the network is down. -/
def offlineEnv : Env := { upstream := fun _ => .getError (.netError 111) }

/-- A store whose content is not JSON. -/
def garbageWorld : World := { file := some (ascii "garbage") }

/-- How the fetch of `getIPInfo` fails, if it does: the diagnostic that is printed and
the error, for a network error, an unreadable body and a body that does not decode. -/
def fetchFailure (env : Env) (ip : Bytes) : Option (String × GoError) :=
  match env.upstream (ascii "http://ip-api.com/json/" ++ ip) with
  | .getError e => some ("Failed to retrieve IP information:", e)
  | .readError e => some ("Failed to read response body:", e)
  | .body body =>
    match unmarshalIPInfo body with
    | .error e => some ("Failed to parse JSON response:", e)
    | .ok _ => none

/-! ## Lemmas: UTF-8 -/

namespace Utf8

theorem encodeRune_cases (c : Nat) (hc : Scalar c) :
    (c ≤ 0x7F ∧ encodeRune c = [c]) ∨
    (0x80 ≤ c ∧ c ≤ 0x7FF ∧ encodeRune c = [0xC0 + c / 64, 0x80 + c % 64]) ∨
    (0x800 ≤ c ∧ c ≤ 0xFFFF ∧ encodeRune c = [0xE0 + c / 4096, 0x80 + c / 64 % 64, 0x80 + c % 64]) ∨
    (0x10000 ≤ c ∧ encodeRune c = [0xF0 + c / 262144, 0x80 + c / 4096 % 64, 0x80 + c / 64 % 64, 0x80 + c % 64]) := by
  obtain ⟨h1, h2⟩ := hc
  unfold encodeRune
  by_cases a1 : c ≤ 0x7F
  · left; rw [if_pos a1]; exact ⟨a1, rfl⟩
  · by_cases a2 : c ≤ 0x7FF
    · right; left; rw [if_neg a1, if_pos a2]; exact ⟨by omega, a2, rfl⟩
    · have a3 : ¬ (0x10FFFF < c ∨ (0xD800 ≤ c ∧ c ≤ 0xDFFF)) := by omega
      by_cases a4 : c ≤ 0xFFFF
      · right; right; left; rw [if_neg a1, if_neg a2, if_neg a3, if_pos a4]; exact ⟨by omega, a4, rfl⟩
      · right; right; right; rw [if_neg a1, if_neg a2, if_neg a3, if_neg a4]; exact ⟨by omega, rfl⟩

theorem acceptRange_two (b : Nat) (h1 : 0xC2 ≤ b) (h2 : b ≤ 0xDF) :
    acceptRange b = some (2, 0x80, 0xBF) := by
  unfold acceptRange; rw [if_pos ⟨h1, h2⟩]

theorem acceptRange_three (b : Nat) (h1 : 0xE0 ≤ b) (h2 : b ≤ 0xEF) :
    ∃ lo hi, acceptRange b = some (3, lo, hi) ∧ 0x80 ≤ lo ∧ hi ≤ 0xBF ∧
      (b = 0xE0 → lo = 0xA0) ∧ (b ≠ 0xE0 → lo = 0x80) ∧ (b = 0xED → hi = 0x9F) ∧ (b ≠ 0xED → hi = 0xBF) := by
  unfold acceptRange
  split_ifs <;> first | omega | (refine ⟨_, _, rfl, ?_⟩; omega)

theorem acceptRange_four (b : Nat) (h1 : 0xF0 ≤ b) (h2 : b ≤ 0xF4) :
    ∃ lo hi, acceptRange b = some (4, lo, hi) ∧ 0x80 ≤ lo ∧ hi ≤ 0xBF ∧
      (b = 0xF0 → lo = 0x90) ∧ (b ≠ 0xF0 → lo = 0x80) ∧ (b = 0xF4 → hi = 0x8F) ∧ (b ≠ 0xF4 → hi = 0xBF) := by
  unfold acceptRange
  split_ifs <;> first | omega | (refine ⟨_, _, rfl, ?_⟩; omega)

theorem decodeRune_encodeRune (c : Nat) (hc : Scalar c) (tl : Bytes) :
    decodeRune (encodeRune c ++ tl) = (c, (encodeRune c).length) := by
  have hs := hc
  obtain ⟨h1, h2⟩ := hc
  rcases encodeRune_cases c hs with ⟨a, e⟩ | ⟨a, b, e⟩ | ⟨a, b, e⟩ | ⟨a, e⟩
  · rw [e]; simp only [decodeRune, List.cons_append, List.nil_append, List.length_cons, List.length_nil]
    rw [if_pos (by omega)]
  · rw [e]; simp only [decodeRune, List.cons_append, List.nil_append, List.length_cons, List.length_nil]
    rw [acceptRange_two _ (by omega) (by omega)]
    simp only []
    rw [if_neg (by omega), if_neg (by omega), if_neg (by omega), if_pos (by omega)]
    congr 1; omega
  · rw [e]; simp only [decodeRune, List.cons_append, List.nil_append, List.length_cons, List.length_nil]
    obtain ⟨lo, hi, hr, p1, p2, p3, p4, p5, p6⟩ := acceptRange_three (0xE0 + c / 4096) (by omega) (by omega)
    rw [hr]
    simp only []
    rw [if_neg (by omega), if_neg (by omega), if_neg (by omega), if_neg (by omega), if_neg (by omega), if_pos (by omega)]
    congr 1; omega
  · rw [e]; simp only [decodeRune, List.cons_append, List.nil_append, List.length_cons, List.length_nil]
    obtain ⟨lo, hi, hr, p1, p2, p3, p4, p5, p6⟩ := acceptRange_four (0xF0 + c / 262144) (by omega) (by omega)
    rw [hr]
    simp only []
    rw [if_neg (by omega), if_neg (by omega), if_neg (by omega), if_neg (by omega), if_neg (by omega), if_neg (by omega), if_neg (by omega)]
    congr 1; omega

theorem acceptRange_some {b sz lo hi : Nat} (h : acceptRange b = some (sz, lo, hi)) :
    0x80 ≤ lo ∧ hi ≤ 0xBF ∧
    ((sz = 2 ∧ 0xC2 ≤ b ∧ b ≤ 0xDF) ∨
     (sz = 3 ∧ 0xE0 ≤ b ∧ b ≤ 0xEF ∧ (b = 0xE0 → lo = 0xA0) ∧ (b = 0xED → hi = 0x9F)) ∨
     (sz = 4 ∧ 0xF0 ≤ b ∧ b ≤ 0xF4 ∧ (b = 0xF0 → lo = 0x90) ∧ (b = 0xF4 → hi = 0x8F))) := by
  unfold acceptRange at h
  split_ifs at h <;> simp only [Option.some.injEq, Prod.mk.injEq, reduceCtorEq] at h <;>
    (obtain ⟨rfl, rfl, rfl⟩ := h; omega)

theorem decodeRune_two {b0 b1 lo hi : Nat} (X : Bytes) (h0 : 0x80 ≤ b0)
    (h : acceptRange b0 = some (2, lo, hi)) (h1 : lo ≤ b1) (h2 : b1 ≤ hi) :
    decodeRune (b0 :: b1 :: X) = (b0 % 32 * 64 + b1 % 64, 2) := by
  simp only [decodeRune, h, List.length_cons]
  rw [if_neg (by omega), if_neg (by omega), if_neg (by omega), if_pos (by omega)]

theorem decodeRune_three {b0 b1 b2 lo hi : Nat} (X : Bytes) (h0 : 0x80 ≤ b0)
    (h : acceptRange b0 = some (3, lo, hi)) (h1 : lo ≤ b1) (h2 : b1 ≤ hi)
    (h3 : 0x80 ≤ b2) (h4 : b2 ≤ 0xBF) :
    decodeRune (b0 :: b1 :: b2 :: X) = (b0 % 16 * 4096 + b1 % 64 * 64 + b2 % 64, 3) := by
  simp only [decodeRune, h, List.length_cons]
  rw [if_neg (by omega), if_neg (by omega), if_neg (by omega), if_neg (by omega),
    if_neg (by omega), if_pos (by omega)]

theorem decodeRune_four {b0 b1 b2 b3 lo hi : Nat} (X : Bytes) (h0 : 0x80 ≤ b0)
    (h : acceptRange b0 = some (4, lo, hi)) (h1 : lo ≤ b1) (h2 : b1 ≤ hi)
    (h3 : 0x80 ≤ b2) (h4 : b2 ≤ 0xBF) (h5 : 0x80 ≤ b3) (h6 : b3 ≤ 0xBF) :
    decodeRune (b0 :: b1 :: b2 :: b3 :: X) =
      (b0 % 8 * 262144 + b1 % 64 * 4096 + b2 % 64 * 64 + b3 % 64, 4) := by
  simp only [decodeRune, h, List.length_cons]
  rw [if_neg (by omega), if_neg (by omega), if_neg (by omega), if_neg (by omega),
    if_neg (by omega), if_neg (by omega), if_neg (by omega)]

theorem decodeRune_spec (b0 : Nat) (rest : Bytes) (h0 : 0x80 ≤ b0) :
    decodeRune (b0 :: rest) = (RuneError, 1) ∨ Accepted b0 rest := by
  rw [decodeRune, if_neg (by omega)]
  cases ha : acceptRange b0 with
  | none => left; rfl
  | some t =>
    obtain ⟨sz, lo, hi⟩ := t
    have hs := acceptRange_some ha
    simp only []
    by_cases c0 : rest.length + 1 < sz
    · left; rw [if_pos c0]
    · rw [if_neg c0]
      cases rest with
      | nil => left; rfl
      | cons b1 rest1 =>
        simp only []
        by_cases c1 : b1 < lo ∨ hi < b1
        · left; rw [if_pos c1]
        · rw [if_neg c1]
          by_cases c2 : sz ≤ 2
          · right
            have : sz = 2 := by omega
            subst this
            exact Accepted.two lo hi b1 rest1 rfl ha (by omega) (by omega)
          · rw [if_neg c2]
            cases rest1 with
            | nil => left; rfl
            | cons b2 rest2 =>
              simp only []
              by_cases c3 : b2 < 0x80 ∨ 0xBF < b2
              · left; rw [if_pos c3]
              · rw [if_neg c3]
                by_cases c4 : sz ≤ 3
                · right
                  have : sz = 3 := by omega
                  subst this
                  exact Accepted.three lo hi b1 b2 rest2 rfl ha (by omega) (by omega)
                    (by omega) (by omega)
                · rw [if_neg c4]
                  cases rest2 with
                  | nil => left; rfl
                  | cons b3 rest3 =>
                    simp only []
                    by_cases c5 : b3 < 0x80 ∨ 0xBF < b3
                    · left; rw [if_pos c5]
                    · right
                      have : sz = 4 := by omega
                      subst this
                      exact Accepted.four lo hi b1 b2 b3 rest3 rfl ha (by omega) (by omega)
                        (by omega) (by omega) (by omega) (by omega)

/-- A rune that `decodeRune` accepts is decoded from its own bytes alone. -/
theorem decodeRune_take (b0 : Nat) (rest X : Bytes) (h0 : 0x80 ≤ b0)
    (hv : ¬ ((decodeRune (b0 :: rest)).1 = RuneError ∧ (decodeRune (b0 :: rest)).2 = 1)) :
    decodeRune ((b0 :: rest).take (decodeRune (b0 :: rest)).2 ++ X) = decodeRune (b0 :: rest) ∧
      ((b0 :: rest).take (decodeRune (b0 :: rest)).2).length = (decodeRune (b0 :: rest)).2 ∧
      1 ≤ (decodeRune (b0 :: rest)).2 := by
  rcases decodeRune_spec b0 rest h0 with e | a
  · rw [e] at hv; simp at hv
  · cases a with
    | two lo hi b1 r hr ha h1 h2 =>
      subst hr
      rw [decodeRune_two r h0 ha h1 h2]
      exact ⟨decodeRune_two X h0 ha h1 h2, rfl, by simp⟩
    | three lo hi b1 b2 r hr ha h1 h2 h3 h4 =>
      subst hr
      rw [decodeRune_three r h0 ha h1 h2 h3 h4]
      exact ⟨decodeRune_three X h0 ha h1 h2 h3 h4, rfl, by simp⟩
    | four lo hi b1 b2 b3 r hr ha h1 h2 h3 h4 h5 h6 =>
      subst hr
      rw [decodeRune_four r h0 ha h1 h2 h3 h4 h5 h6]
      exact ⟨decodeRune_four X h0 ha h1 h2 h3 h4 h5 h6, rfl, by simp⟩

end Utf8

/-! ## Lemmas: a string literal is read back as the coerced string -/

namespace Json
open Utf8

theorem encodeRune_ascii {b : Nat} (h : b < 0x80) : encodeRune b = [b] := by
  unfold encodeRune; rw [if_pos (by omega)]

theorem decodeRune_ascii {b : Nat} (rest : Bytes) (h : b < 0x80) :
    decodeRune (b :: rest) = (b, 1) := by
  rw [decodeRune, if_pos h]

theorem hexVal_hexDigit {n : Nat} (h : n < 16) : hexVal (hexDigit n) = some n := by
  interval_cases n <;> rfl

theorem readString_skip (p tl : Bytes) : readString p.length (p ++ tl) = readString 0 tl := by
  induction p with
  | nil => rfl
  | cons a p ih => simpa [readString] using ih

theorem coerce_skip (p tl : Bytes) : coerce p.length (p ++ tl) = coerce 0 tl := by
  induction p with
  | nil => rfl
  | cons a p ih => simpa [coerce] using ih

/-- Reading back what `escapeByte` wrote. -/
theorem unquoteStep_escapeByte {b : Nat} (h : b < 0x80) (X : Bytes) :
    ∃ c0 p, escapeByte b = c0 :: p ∧ c0 ≠ 0x22 ∧
      unquoteStep c0 (p ++ X) = some ([b], p.length + 1) := by
  unfold escapeByte
  by_cases s : htmlSafe b = true
  · rw [if_pos s]
    simp only [htmlSafe, decide_eq_true_eq] at s
    refine ⟨b, [], rfl, by omega, ?_⟩
    unfold unquoteStep
    rw [if_neg (by omega), if_neg (by omega), if_pos (by omega)]
    rfl
  · rw [if_neg s]
    simp only [htmlSafe, decide_eq_true_eq] at s
    by_cases c1 : b = 0x5C ∨ b = 0x22
    · rw [if_pos c1]
      refine ⟨0x5C, [b], rfl, by decide, ?_⟩
      simp only [unquoteStep, List.cons_append, List.nil_append, if_true]
      rw [if_pos (by omega)]
      rfl
    · rw [if_neg c1]
      by_cases c2 : b = 0x08
      · subst c2; exact ⟨0x5C, [0x62], rfl, by decide, rfl⟩
      · rw [if_neg c2]
        by_cases c3 : b = 0x0C
        · subst c3; exact ⟨0x5C, [0x66], rfl, by decide, rfl⟩
        · rw [if_neg c3]
          by_cases c4 : b = 0x0A
          · subst c4; exact ⟨0x5C, [0x6E], rfl, by decide, rfl⟩
          · rw [if_neg c4]
            by_cases c5 : b = 0x0D
            · subst c5; exact ⟨0x5C, [0x72], rfl, by decide, rfl⟩
            · rw [if_neg c5]
              by_cases c6 : b = 0x09
              · subst c6; exact ⟨0x5C, [0x74], rfl, by decide, rfl⟩
              · rw [if_neg c6]
                refine ⟨0x5C, _, rfl, by decide, ?_⟩
                have hb : b / 16 * 4096 / 4096 = b / 16 := by omega
                simp only [unquoteStep, getu4, List.cons_append, List.nil_append, if_true,
                  hexVal_hexDigit (show b / 16 < 16 by omega),
                  hexVal_hexDigit (show b % 16 < 16 by omega), List.length_cons, List.length_nil]
                have e : hexVal 0x30 = some 0 := rfl
                simp only [e]
                have v : 0 * 4096 + 0 * 256 + b / 16 * 16 + b % 16 = b := by omega
                simp only [v, true_and, and_self, if_true]
                repeat rw [if_neg (by omega)]
                rw [encodeRune_ascii h]

/-- Reading back what `quoteStep` wrote for the rune at the front of `b :: rest`. -/
theorem unquoteStep_quoteStep (b : Nat) (rest X : Bytes) :
    ∃ c0 p, (quoteStep b rest).1 = c0 :: p ∧ c0 ≠ 0x22 ∧
      unquoteStep c0 (p ++ X) = some (encodeRune (decodeRune (b :: rest)).1, p.length + 1) ∧
      (quoteStep b rest).2 = (decodeRune (b :: rest)).2 := by
  unfold quoteStep
  by_cases h : b < 0x80
  · rw [if_pos h, decodeRune_ascii rest h]
    obtain ⟨c0, p, e1, e2, e3⟩ := unquoteStep_escapeByte h X
    exact ⟨c0, p, e1, e2, by rw [e3, encodeRune_ascii h], rfl⟩
  · rw [if_neg h]
    simp only []
    by_cases he : (decodeRune (b :: rest)).1 = RuneError ∧ (decodeRune (b :: rest)).2 = 1
    · rw [if_pos he, he.1, he.2]
      refine ⟨0x5C, [0x75, 0x66, 0x66, 0x66, 0x64], ?_, by decide, ?_, ?_⟩
      · rfl
      · rfl
      · trivial
    · rw [if_neg he]
      by_cases hl : (decodeRune (b :: rest)).1 = 0x2028 ∨ (decodeRune (b :: rest)).1 = 0x2029
      · rw [if_pos hl]
        rcases hl with hl | hl
        · rw [hl]
          refine ⟨0x5C, [0x75, 0x32, 0x30, 0x32, 0x38], ?_, by decide, ?_, ?_⟩ <;>
            rfl
        · rw [hl]
          refine ⟨0x5C, [0x75, 0x32, 0x30, 0x32, 0x39], ?_, by decide, ?_, ?_⟩ <;>
            rfl
      · rw [if_neg hl]
        obtain ⟨t1, t2, t3⟩ := decodeRune_take b rest X (by omega) he
        generalize hn : (decodeRune (b :: rest)).2 = n at *
        obtain ⟨m, rfl⟩ : ∃ m, n = m + 1 := ⟨n - 1, by omega⟩
        simp only [List.take_succ_cons, List.cons_append, List.length_cons] at t1 t2 ⊢
        refine ⟨b, _, rfl, by omega, ?_, trivial⟩
        unfold unquoteStep
        rw [if_neg (by omega), if_neg (by omega), if_neg (by omega), t1]
        have : (List.take m rest).length = m := by omega
        rw [this, hn]

/-- A string literal written by `appendString` is read back as the coerced string. -/
theorem readString_quoteBody (s : Bytes) : ∀ (skip : Nat) (tl : Bytes),
    readString 0 (quoteBody skip s ++ 0x22 :: tl) = some (coerce skip s, tl) := by
  induction s with
  | nil => intro skip tl; cases skip <;> simp [quoteBody, coerce, readString]
  | cons b rest ih =>
    intro skip tl
    cases skip with
    | succ k => simpa [quoteBody, coerce] using ih k tl
    | zero =>
      obtain ⟨c0, p, e1, e2, e3, e4⟩ :=
        unquoteStep_quoteStep b rest (quoteBody ((quoteStep b rest).2 - 1) rest ++ 0x22 :: tl)
      rw [quoteBody, coerce, e1]
      simp only [List.cons_append, List.append_assoc]
      rw [readString, if_neg e2, e3]
      simp only [Nat.add_sub_cancel]
      rw [readString_skip, ih, e4]

theorem readString_appendString (s tl : Bytes) :
    readString 0 (quoteBody 0 s ++ 0x22 :: tl) = some (coerce 0 s, tl) :=
  readString_quoteBody s 0 tl

end Json

/-! ## Lemmas: valid UTF-8 -/

namespace Utf8

theorem valid_nil : Valid [] := ⟨[], by simp, rfl⟩

theorem valid_append {a b : Bytes} (ha : Valid a) (hb : Valid b) : Valid (a ++ b) := by
  obtain ⟨ra, ha1, rfl⟩ := ha
  obtain ⟨rb, hb1, rfl⟩ := hb
  refine ⟨ra ++ rb, ?_, by simp⟩
  intro r hr
  rcases List.mem_append.1 hr with h | h
  · exact ha1 r h
  · exact hb1 r h

theorem encodeRune_valid (r : Nat) : Valid (encodeRune r) := by
  by_cases h : Scalar r
  · exact ⟨[r], by simpa using h, by simp⟩
  · refine ⟨[0xFFFD], by simp [Scalar], ?_⟩
    have e : encodeRune r = [0xEF, 0xBF, 0xBD] := by
      unfold Scalar at h
      unfold encodeRune
      rw [if_neg (by omega), if_neg (by omega), if_pos (by omega)]
    rw [e]; rfl

theorem valid_singleton {b : Nat} (h : b < 0x80) : Valid [b] := by
  have := encodeRune_valid b
  rwa [show encodeRune b = [b] from by unfold encodeRune; rw [if_pos (by omega)]] at this

/-- A string of ASCII bytes is valid UTF-8. -/
theorem valid_of_ascii : ∀ (s : Bytes), (∀ b ∈ s, b < 0x80) → Valid s
  | [], _ => valid_nil
  | b :: s, h => by
    have h1 : Valid [b] := valid_singleton (h b (by simp))
    have h2 : Valid s := valid_of_ascii s (fun x hx => h x (by simp [hx]))
    simpa using valid_append h1 h2

theorem encodeRune_ne_nil (r : Nat) : ∃ b p, encodeRune r = b :: p := by
  unfold encodeRune
  split_ifs <;> exact ⟨_, _, rfl⟩

end Utf8

namespace Json
open Utf8

/-- Coercion leaves valid UTF-8 as it is. -/
theorem coerce_of_valid {s : Bytes} (h : Valid s) : coerce 0 s = s := by
  obtain ⟨rs, hrs, rfl⟩ := h
  induction rs with
  | nil => rfl
  | cons r rs ih =>
    have hr : Scalar r := hrs r (by simp)
    have ih2 := ih (fun x hx => hrs x (by simp [hx]))
    simp only [List.flatMap_cons]
    obtain ⟨b, p, e⟩ := encodeRune_ne_nil r
    have d := decodeRune_encodeRune r hr (rs.flatMap encodeRune)
    rw [e] at d ⊢
    simp only [List.cons_append] at d ⊢
    rw [coerce, d]
    simp only [List.length_cons, Nat.add_sub_cancel]
    rw [coerce_skip, ih2, e]
    rfl

theorem valid_of_some_eq {p piece : Bytes} {m n : Nat} (hp : Valid p)
    (h : some (p, m) = some (piece, n)) : Valid piece := by
  simp only [Option.some.injEq, Prod.mk.injEq] at h
  exact h.1 ▸ hp

theorem unquoteStep_valid {c n : Nat} {rest piece : Bytes}
    (h : unquoteStep c rest = some (piece, n)) : Valid piece := by
  unfold unquoteStep at h
  by_cases h1 : c = 0x5C
  · rw [if_pos h1] at h
    cases rest with
    | nil => simp at h
    | cons e rest1 =>
      simp only [] at h
      by_cases g1 : e = 0x22 ∨ e = 0x5C ∨ e = 0x2F
      · rw [if_pos g1] at h
        exact valid_of_some_eq (valid_singleton (by omega)) h
      rw [if_neg g1] at h
      by_cases g2 : e = 0x62
      · rw [if_pos g2] at h; exact valid_of_some_eq (valid_singleton (by omega)) h
      rw [if_neg g2] at h
      by_cases g3 : e = 0x66
      · rw [if_pos g3] at h; exact valid_of_some_eq (valid_singleton (by omega)) h
      rw [if_neg g3] at h
      by_cases g4 : e = 0x6E
      · rw [if_pos g4] at h; exact valid_of_some_eq (valid_singleton (by omega)) h
      rw [if_neg g4] at h
      by_cases g5 : e = 0x72
      · rw [if_pos g5] at h; exact valid_of_some_eq (valid_singleton (by omega)) h
      rw [if_neg g5] at h
      by_cases g6 : e = 0x74
      · rw [if_pos g6] at h; exact valid_of_some_eq (valid_singleton (by omega)) h
      rw [if_neg g6] at h
      by_cases g7 : e = 0x75
      · rw [if_pos g7] at h
        cases hg : getu4 (c :: e :: rest1) with
        | none => rw [hg] at h; simp at h
        | some rr =>
          rw [hg] at h
          simp only [] at h
          by_cases k1 : 0xD800 ≤ rr ∧ rr < 0xE000
          · rw [if_pos k1] at h
            cases hg2 : getu4 (List.drop 4 rest1) with
            | none =>
              rw [hg2] at h
              exact valid_of_some_eq (encodeRune_valid _) h
            | some rr1 =>
              rw [hg2] at h
              simp only [] at h
              by_cases k2 : rr < 0xDC00 ∧ 0xDC00 ≤ rr1 ∧ rr1 < 0xE000
              · rw [if_pos k2] at h; exact valid_of_some_eq (encodeRune_valid _) h
              · rw [if_neg k2] at h; exact valid_of_some_eq (encodeRune_valid _) h
          · rw [if_neg k1] at h; exact valid_of_some_eq (encodeRune_valid _) h
      · rw [if_neg g7] at h; simp at h
  · rw [if_neg h1] at h
    by_cases h2 : c = 0x22 ∨ c < 0x20
    · rw [if_pos h2] at h; simp at h
    rw [if_neg h2] at h
    by_cases h3 : c < 0x80
    · rw [if_pos h3] at h; exact valid_of_some_eq (valid_singleton h3) h
    · rw [if_neg h3] at h; exact valid_of_some_eq (encodeRune_valid _) h

/-- Every string the decoder reads is valid UTF-8. -/
theorem readString_valid (s : Bytes) : ∀ (skip : Nat) (out rest : Bytes),
    readString skip s = some (out, rest) → Valid out := by
  induction s with
  | nil => intro skip out rest h; cases skip <;> simp [readString] at h
  | cons c s ih =>
    intro skip out rest h
    cases skip with
    | succ k => rw [readString] at h; exact ih k out rest h
    | zero =>
      rw [readString] at h
      split_ifs at h with hq
      · simp only [Option.some.injEq, Prod.mk.injEq] at h
        rw [← h.1]; exact valid_nil
      · cases hu : unquoteStep c s with
        | none => rw [hu] at h; simp at h
        | some pn =>
          obtain ⟨piece, n⟩ := pn
          rw [hu] at h
          simp only [] at h
          cases hr : readString (n - 1) s with
          | none => rw [hr] at h; simp at h
          | some sr =>
            obtain ⟨s1, r1⟩ := sr
            rw [hr] at h
            simp only [Option.some.injEq, Prod.mk.injEq] at h
            rw [← h.1]
            exact valid_append (unquoteStep_valid hu) (ih _ _ _ hr)

end Json

/-! ## Lemmas: the reader returns valid strings only -/

namespace Json
open Utf8

theorem readElements_wf (pv : Bytes → Option (Value × Bytes))
    (hpv : ∀ s v r, pv s = some (v, r) → v.WellFormed) :
    ∀ (fuel : Nat) (s : Bytes) (vs : List Value) (r : Bytes),
      readElements pv fuel s = some (vs, r) → ∀ x ∈ vs, x.WellFormed := by
  intro fuel
  induction fuel with
  | zero => intro s vs r h; simp [readElements] at h
  | succ f ih =>
    intro s vs r h
    rw [readElements] at h
    cases h1 : pv (skipSpace s) with
    | none => rw [h1] at h; simp at h
    | some vr =>
      obtain ⟨v, rest⟩ := vr
      rw [h1] at h
      simp only [] at h
      cases h2 : skipSpace rest with
      | nil => rw [h2] at h; simp at h
      | cons c rest1 =>
        rw [h2] at h
        simp only [] at h
        by_cases c1 : c = 0x2C
        · rw [if_pos c1] at h
          cases h3 : readElements pv f rest1 with
          | none => rw [h3] at h; simp at h
          | some q =>
            obtain ⟨vs1, r1⟩ := q
            rw [h3] at h
            simp only [Option.some.injEq, Prod.mk.injEq] at h
            obtain ⟨rfl, -⟩ := h
            intro x hx
            rcases List.mem_cons.1 hx with e | e
            · exact e ▸ hpv _ _ _ h1
            · exact ih _ _ _ h3 x e
        · rw [if_neg c1] at h
          by_cases c2 : c = 0x5D
          · rw [if_pos c2] at h
            simp only [Option.some.injEq, Prod.mk.injEq] at h
            obtain ⟨rfl, -⟩ := h
            intro x hx
            rw [List.mem_singleton.1 hx]
            exact hpv _ _ _ h1
          · rw [if_neg c2] at h; simp at h

theorem readMembers_wf (pv : Bytes → Option (Value × Bytes))
    (hpv : ∀ s v r, pv s = some (v, r) → v.WellFormed) :
    ∀ (fuel : Nat) (s : Bytes) (ms : List (Bytes × Value)) (r : Bytes),
      readMembers pv fuel s = some (ms, r) → ∀ m ∈ ms, m.2.WellFormed := by
  intro fuel
  induction fuel with
  | zero => intro s ms r h; simp [readMembers] at h
  | succ f ih =>
    intro s ms r h
    rw [readMembers] at h
    cases h0 : skipSpace s with
    | nil => rw [h0] at h; simp at h
    | cons q rest =>
      rw [h0] at h
      simp only [] at h
      by_cases cq : q = 0x22
      · rw [if_pos cq] at h
        cases hk : readString 0 rest with
        | none => rw [hk] at h; simp at h
        | some kr =>
          obtain ⟨key, rest1⟩ := kr
          rw [hk] at h
          simp only [] at h
          cases h5 : skipSpace rest1 with
          | nil => rw [h5] at h; simp at h
          | cons colon rest2 =>
            rw [h5] at h
            simp only [] at h
            by_cases cc : colon = 0x3A
            · rw [if_pos cc] at h
              cases h1 : pv (skipSpace rest2) with
              | none => rw [h1] at h; simp at h
              | some vr =>
                obtain ⟨v, rest3⟩ := vr
                rw [h1] at h
                simp only [] at h
                cases h2 : skipSpace rest3 with
                | nil => rw [h2] at h; simp at h
                | cons c rest4 =>
                  rw [h2] at h
                  simp only [] at h
                  by_cases c1 : c = 0x2C
                  · rw [if_pos c1] at h
                    cases h3 : readMembers pv f rest4 with
                    | none => rw [h3] at h; simp at h
                    | some q =>
                      obtain ⟨ms1, r1⟩ := q
                      rw [h3] at h
                      simp only [Option.some.injEq, Prod.mk.injEq] at h
                      obtain ⟨rfl, -⟩ := h
                      intro x hx
                      rcases List.mem_cons.1 hx with e | e
                      · rw [e]; exact hpv _ _ _ h1
                      · exact ih _ _ _ h3 x e
                  · rw [if_neg c1] at h
                    by_cases c2 : c = 0x7D
                    · rw [if_pos c2] at h
                      simp only [Option.some.injEq, Prod.mk.injEq] at h
                      obtain ⟨rfl, -⟩ := h
                      intro x hx
                      rw [List.mem_singleton.1 hx]
                      exact hpv _ _ _ h1
                    · rw [if_neg c2] at h; simp at h
            · rw [if_neg cc] at h; simp at h
      · rw [if_neg cq] at h; simp at h

theorem wf_of_some_eq {v w : Value} {r s : Bytes} (hv : v.WellFormed)
    (h : some (v, r) = some (w, s)) : w.WellFormed := by
  simp only [Option.some.injEq, Prod.mk.injEq] at h
  exact h.1 ▸ hv

theorem readValueWith_wf (inner : Option (Bytes → Option (Value × Bytes)))
    (hin : ∀ pv, inner = some pv → ∀ s v r, pv s = some (v, r) → v.WellFormed) :
    ∀ (s : Bytes) (v : Value) (r : Bytes),
      readValueWith inner s = some (v, r) → v.WellFormed := by
  intro s v r h
  cases s with
  | nil => simp [readValueWith] at h
  | cons c rest =>
    unfold readValueWith at h
    simp only [] at h
    by_cases c1 : c = 0x22
    · rw [if_pos c1] at h
      cases hs : readString 0 rest with
      | none => rw [hs] at h; simp at h
      | some q =>
        obtain ⟨s1, r1⟩ := q
        rw [hs] at h
        exact wf_of_some_eq (Value.WellFormed.string s1 (readString_valid _ _ _ _ hs)) h
    rw [if_neg c1] at h
    by_cases c2 : c = 0x7B
    · rw [if_pos c2] at h
      cases inner with
      | none => simp at h
      | some pv =>
        simp only [] at h
        cases hk : skipSpace rest with
        | nil => rw [hk] at h; simp at h
        | cons c1 rest1 =>
          rw [hk] at h
          simp only [] at h
          by_cases e1 : c1 = 0x7D
          · rw [if_pos e1] at h
            exact wf_of_some_eq (Value.WellFormed.object [] (by simp)) h
          · rw [if_neg e1] at h
            cases hm : readMembers pv rest.length (c1 :: rest1) with
            | none => rw [hm] at h; simp at h
            | some q =>
              obtain ⟨ms, r1⟩ := q
              rw [hm] at h
              exact wf_of_some_eq
                (Value.WellFormed.object ms (readMembers_wf _ (hin pv rfl) _ _ _ _ hm)) h
    rw [if_neg c2] at h
    by_cases c3 : c = 0x5B
    · rw [if_pos c3] at h
      cases inner with
      | none => simp at h
      | some pv =>
        simp only [] at h
        cases hk : skipSpace rest with
        | nil => rw [hk] at h; simp at h
        | cons c1 rest1 =>
          rw [hk] at h
          simp only [] at h
          by_cases e1 : c1 = 0x5D
          · rw [if_pos e1] at h
            exact wf_of_some_eq (Value.WellFormed.array [] (by simp)) h
          · rw [if_neg e1] at h
            cases hm : readElements pv rest.length (c1 :: rest1) with
            | none => rw [hm] at h; simp at h
            | some q =>
              obtain ⟨vs, r1⟩ := q
              rw [hm] at h
              exact wf_of_some_eq
                (Value.WellFormed.array vs (readElements_wf _ (hin pv rfl) _ _ _ _ hm)) h
    rw [if_neg c3] at h
    by_cases c4 : c = 0x74
    · rw [if_pos c4] at h
      split at h
      · exact wf_of_some_eq (Value.WellFormed.bool _) h
      · simp at h
    rw [if_neg c4] at h
    by_cases c5 : c = 0x66
    · rw [if_pos c5] at h
      split at h
      · exact wf_of_some_eq (Value.WellFormed.bool _) h
      · simp at h
    rw [if_neg c5] at h
    by_cases c6 : c = 0x6E
    · rw [if_pos c6] at h
      split at h
      · exact wf_of_some_eq Value.WellFormed.null h
      · simp at h
    rw [if_neg c6] at h
    split at h
    · simp at h
    · exact wf_of_some_eq Value.WellFormed.number h

/-- Every string in a tree the reader returns is valid UTF-8. -/
theorem readValue_wf : ∀ (depth : Nat) (s : Bytes) (v : Value) (r : Bytes),
    readValue depth s = some (v, r) → v.WellFormed := by
  intro depth
  induction depth with
  | zero =>
    intro s v r h
    rw [readValue] at h
    exact readValueWith_wf none (by simp) s v r h
  | succ d ih =>
    intro s v r h
    rw [readValue] at h
    refine readValueWith_wf (some (readValue d)) ?_ s v r h
    intro pv hpv
    simp only [Option.some.injEq] at hpv
    exact hpv ▸ ih

theorem parse_wf {data : Bytes} {v : Value} (h : parse data = some v) : v.WellFormed := by
  unfold parse at h
  cases hr : readValue maxNestingDepth (skipSpace data) with
  | none => rw [hr] at h; simp at h
  | some q =>
    obtain ⟨w, rest⟩ := q
    rw [hr] at h
    simp only [] at h
    split at h
    · simp only [Option.some.injEq] at h
      exact h ▸ readValue_wf _ _ _ _ hr
    · simp at h

end Json

/-! ## Lemmas: the loops of the reader never stop for want of fuel -/

namespace Json
open Utf8

theorem length_skipSpace (s : Bytes) : (skipSpace s).length ≤ s.length := by
  induction s with
  | nil => simp [skipSpace]
  | cons b s ih =>
    rw [skipSpace]
    split_ifs
    · exact Nat.le_succ_of_le ih
    · exact Nat.le_refl _

theorem length_skipDigits (s : Bytes) : (skipDigits s).length ≤ s.length := by
  induction s with
  | nil => simp [skipDigits]
  | cons b s ih =>
    rw [skipDigits]
    split_ifs
    · exact Nat.le_succ_of_le ih
    · exact Nat.le_refl _

theorem length_scanExponent {s r : Bytes} (h : scanExponent s = some r) :
    r.length ≤ s.length := by
  cases s with
  | nil => simp only [scanExponent, Option.some.injEq] at h; rw [← h]
  | cons e rest =>
    unfold scanExponent at h
    simp only [] at h
    split_ifs at h
    · cases rest with
      | nil => simp at h
      | cons s rest1 =>
        simp only [] at h
        split_ifs at h
        · cases rest1 with
          | nil => simp at h
          | cons d rest2 =>
            simp only [] at h
            split_ifs at h
            simp only [Option.some.injEq] at h
            have := length_skipDigits rest2
            rw [← h]; simp only [List.length_cons]; omega
        · simp only [Option.some.injEq] at h
          have := length_skipDigits rest1
          rw [← h]; simp only [List.length_cons]; omega
    · simp only [Option.some.injEq] at h
      rw [← h]

theorem length_scanFraction {s r : Bytes} (h : scanFraction s = some r) :
    r.length ≤ s.length := by
  cases s with
  | nil => simp only [scanFraction, Option.some.injEq] at h; rw [← h]
  | cons p rest =>
    unfold scanFraction at h
    simp only [] at h
    split_ifs at h
    · cases rest with
      | nil => simp at h
      | cons d rest1 =>
        simp only [] at h
        split_ifs at h
        have h1 := length_scanExponent h
        have h2 := length_skipDigits rest1
        simp only [List.length_cons]; omega
    · exact length_scanExponent h

theorem length_scanDigits {s r : Bytes} (h : scanDigits s = some r) :
    r.length < s.length := by
  cases s with
  | nil => simp [scanDigits] at h
  | cons d rest =>
    rw [scanDigits] at h
    split_ifs at h
    · have := length_scanFraction h
      simp only [List.length_cons]; omega
    · have h1 := length_scanFraction h
      have h2 := length_skipDigits rest
      simp only [List.length_cons]; omega

theorem length_scanNumber {s r : Bytes} (h : scanNumber s = some r) :
    r.length < s.length := by
  cases s with
  | nil => simp [scanNumber] at h
  | cons c rest =>
    rw [scanNumber] at h
    split_ifs at h
    · have := length_scanDigits h
      simp only [List.length_cons]; omega
    · exact length_scanDigits h

theorem length_readString (s : Bytes) : ∀ (skip : Nat) (out rest : Bytes),
    readString skip s = some (out, rest) → rest.length < s.length := by
  induction s with
  | nil => intro skip out rest h; cases skip <;> simp [readString] at h
  | cons c s ih =>
    intro skip out rest h
    cases skip with
    | succ k =>
      rw [readString] at h
      have := ih k out rest h
      simp only [List.length_cons]; omega
    | zero =>
      rw [readString] at h
      split_ifs at h with hq
      · simp only [Option.some.injEq, Prod.mk.injEq] at h
        rw [← h.2]; simp
      · cases hu : unquoteStep c s with
        | none => rw [hu] at h; simp at h
        | some pn =>
          obtain ⟨piece, n⟩ := pn
          rw [hu] at h
          simp only [] at h
          cases hr : readString (n - 1) s with
          | none => rw [hr] at h; simp at h
          | some sr =>
            obtain ⟨s1, r1⟩ := sr
            rw [hr] at h
            simp only [Option.some.injEq, Prod.mk.injEq] at h
            have := ih _ _ _ hr
            rw [← h.2]; simp only [List.length_cons]; omega

/-- The loop over the elements of an array never stops for want of fuel: with the length
of the input as fuel, more fuel changes nothing. -/
theorem readElements_fuel {pv : Bytes → Option (Value × Bytes)} (hpv : ∀ s v r, pv s = some (v, r) → r.length < s.length) :
    ∀ (fuel : Nat) (s : Bytes), s.length ≤ fuel →
      readElements pv (fuel + 1) s = readElements pv fuel s := by
  intro fuel
  induction fuel with
  | zero =>
    intro s hs
    have : s = [] := List.eq_nil_of_length_eq_zero (by omega)
    subst this
    conv_lhs => rw [readElements]
    conv_rhs => rw [readElements]
    cases h : pv (skipSpace []) with
    | none => rfl
    | some q =>
      have := hpv _ _ _ h
      simp [skipSpace] at this
  | succ f ih =>
    intro s hs
    conv_lhs => rw [readElements]
    conv_rhs => rw [readElements]
    cases h1 : pv (skipSpace s) with
    | none => rfl
    | some q =>
      obtain ⟨v, rest⟩ := q
      simp only []
      cases h2 : skipSpace rest with
      | nil => rfl
      | cons c rest1 =>
        simp only []
        have l1 := hpv _ _ _ h1
        have l2 := length_skipSpace s
        have l3 := length_skipSpace rest
        rw [h2] at l3
        simp only [List.length_cons] at l3
        rw [ih rest1 (by omega)]

theorem length_readElements {pv : Bytes → Option (Value × Bytes)} (hpv : ∀ s v r, pv s = some (v, r) → r.length < s.length) :
    ∀ (fuel : Nat) (s : Bytes) (vs : List Value) (r : Bytes),
      readElements pv fuel s = some (vs, r) → r.length < s.length := by
  intro fuel
  induction fuel with
  | zero => intro s vs r h; simp [readElements] at h
  | succ f ih =>
    intro s vs r h
    rw [readElements] at h
    cases h1 : pv (skipSpace s) with
    | none => rw [h1] at h; simp at h
    | some q =>
      obtain ⟨v, rest⟩ := q
      rw [h1] at h
      simp only [] at h
      have l1 := hpv _ _ _ h1
      have l2 := length_skipSpace s
      have l3 := length_skipSpace rest
      cases h2 : skipSpace rest with
      | nil => rw [h2] at h; simp at h
      | cons c rest1 =>
        rw [h2] at h l3
        simp only [List.length_cons] at l3
        simp only [] at h
        split_ifs at h
        · cases h3 : readElements pv f rest1 with
          | none => rw [h3] at h; simp at h
          | some q =>
            obtain ⟨vs1, r1⟩ := q
            rw [h3] at h
            simp only [Option.some.injEq, Prod.mk.injEq] at h
            have := ih _ _ _ h3
            rw [← h.2]; omega
        · simp only [Option.some.injEq, Prod.mk.injEq] at h
          rw [← h.2]; omega

/-- The loop over the members of an object never stops for want of fuel. -/
theorem readMembers_fuel {pv : Bytes → Option (Value × Bytes)}
    (hpv : ∀ s v r, pv s = some (v, r) → r.length < s.length) :
    ∀ (fuel : Nat) (s : Bytes), s.length ≤ fuel →
      readMembers pv (fuel + 1) s = readMembers pv fuel s := by
  intro fuel
  induction fuel with
  | zero =>
    intro s hs
    have : s = [] := List.eq_nil_of_length_eq_zero (by omega)
    subst this
    rfl
  | succ f ih =>
    intro s hs
    conv_lhs => rw [readMembers]
    conv_rhs => rw [readMembers]
    have l0 := length_skipSpace s
    cases h0 : skipSpace s with
    | nil => rfl
    | cons q rest =>
      rw [h0] at l0
      simp only [List.length_cons] at l0
      simp only []
      split_ifs
      · cases hk : readString 0 rest with
        | none => rfl
        | some kr =>
          obtain ⟨key, rest1⟩ := kr
          simp only []
          have l1 := length_readString _ _ _ _ hk
          have l2 := length_skipSpace rest1
          cases h5 : skipSpace rest1 with
          | nil => rfl
          | cons colon rest2 =>
            rw [h5] at l2
            simp only [List.length_cons] at l2
            simp only []
            split_ifs
            · cases h1 : pv (skipSpace rest2) with
              | none => rfl
              | some vr =>
                obtain ⟨v, rest3⟩ := vr
                simp only []
                have l3 := hpv _ _ _ h1
                have l4 := length_skipSpace rest2
                have l5 := length_skipSpace rest3
                cases h2 : skipSpace rest3 with
                | nil => rfl
                | cons c rest4 =>
                  rw [h2] at l5
                  simp only [List.length_cons] at l5
                  simp only []
                  rw [ih rest4 (by omega)]
            · rfl
      · rfl

theorem length_readMembers {pv : Bytes → Option (Value × Bytes)}
    (hpv : ∀ s v r, pv s = some (v, r) → r.length < s.length) :
    ∀ (fuel : Nat) (s : Bytes) (ms : List (Bytes × Value)) (r : Bytes),
      readMembers pv fuel s = some (ms, r) → r.length < s.length := by
  intro fuel
  induction fuel with
  | zero => intro s ms r h; simp [readMembers] at h
  | succ f ih =>
    intro s ms r h
    rw [readMembers] at h
    have l0 := length_skipSpace s
    cases h0 : skipSpace s with
    | nil => rw [h0] at h; simp at h
    | cons q rest =>
      rw [h0] at h l0
      simp only [List.length_cons] at l0
      simp only [] at h
      split_ifs at h
      cases hk : readString 0 rest with
      | none => rw [hk] at h; simp at h
      | some kr =>
        obtain ⟨key, rest1⟩ := kr
        rw [hk] at h
        simp only [] at h
        have l1 := length_readString _ _ _ _ hk
        have l2 := length_skipSpace rest1
        cases h5 : skipSpace rest1 with
        | nil => rw [h5] at h; simp at h
        | cons colon rest2 =>
          rw [h5] at h l2
          simp only [List.length_cons] at l2
          simp only [] at h
          split_ifs at h
          cases h1 : pv (skipSpace rest2) with
          | none => rw [h1] at h; simp at h
          | some vr =>
            obtain ⟨v, rest3⟩ := vr
            rw [h1] at h
            simp only [] at h
            have l3 := hpv _ _ _ h1
            have l4 := length_skipSpace rest2
            have l5 := length_skipSpace rest3
            cases h2 : skipSpace rest3 with
            | nil => rw [h2] at h; simp at h
            | cons c rest4 =>
              rw [h2] at h l5
              simp only [List.length_cons] at l5
              simp only [] at h
              split_ifs at h
              · cases h3 : readMembers pv f rest4 with
                | none => rw [h3] at h; simp at h
                | some q =>
                  obtain ⟨ms1, r1⟩ := q
                  rw [h3] at h
                  simp only [Option.some.injEq, Prod.mk.injEq] at h
                  have := ih _ _ _ h3
                  rw [← h.2]; omega
              · simp only [Option.some.injEq, Prod.mk.injEq] at h
                rw [← h.2]; omega

theorem length_of_some_eq {v w : Value} {r r1 s : Bytes} (hr : r.length < s.length)
    (h : some (v, r) = some (w, r1)) : r1.length < s.length := by
  simp only [Option.some.injEq, Prod.mk.injEq] at h
  exact h.2 ▸ hr

theorem length_readValueWith (inner : Option (Bytes → Option (Value × Bytes)))
    (hin : ∀ pv, inner = some pv → ∀ s v r, pv s = some (v, r) → r.length < s.length) :
    ∀ (s : Bytes) (v : Value) (r : Bytes),
      readValueWith inner s = some (v, r) → r.length < s.length := by
  intro s v r h
  cases s with
  | nil => simp [readValueWith] at h
  | cons c rest =>
    unfold readValueWith at h
    simp only [] at h
    by_cases c1 : c = 0x22
    · rw [if_pos c1] at h
      cases hs : readString 0 rest with
      | none => rw [hs] at h; simp at h
      | some q =>
        obtain ⟨s1, r1⟩ := q
        rw [hs] at h
        have := length_readString _ _ _ _ hs
        exact length_of_some_eq (by simp only [List.length_cons]; omega) h
    rw [if_neg c1] at h
    by_cases c2 : c = 0x7B
    · rw [if_pos c2] at h
      cases inner with
      | none => simp at h
      | some pv =>
        simp only [] at h
        have l0 := length_skipSpace rest
        cases hk : skipSpace rest with
        | nil => rw [hk] at h; simp at h
        | cons c1 rest1 =>
          rw [hk] at h l0
          simp only [List.length_cons] at l0
          simp only [] at h
          by_cases e1 : c1 = 0x7D
          · rw [if_pos e1] at h
            exact length_of_some_eq (by simp only [List.length_cons]; omega) h
          · rw [if_neg e1] at h
            cases hm : readMembers pv rest.length (c1 :: rest1) with
            | none => rw [hm] at h; simp at h
            | some q =>
              obtain ⟨ms, r1⟩ := q
              rw [hm] at h
              have := length_readMembers (hin pv rfl) _ _ _ _ hm
              simp only [List.length_cons] at this
              exact length_of_some_eq (by simp only [List.length_cons]; omega) h
    rw [if_neg c2] at h
    by_cases c3 : c = 0x5B
    · rw [if_pos c3] at h
      cases inner with
      | none => simp at h
      | some pv =>
        simp only [] at h
        have l0 := length_skipSpace rest
        cases hk : skipSpace rest with
        | nil => rw [hk] at h; simp at h
        | cons c1 rest1 =>
          rw [hk] at h l0
          simp only [List.length_cons] at l0
          simp only [] at h
          by_cases e1 : c1 = 0x5D
          · rw [if_pos e1] at h
            exact length_of_some_eq (by simp only [List.length_cons]; omega) h
          · rw [if_neg e1] at h
            cases hm : readElements pv rest.length (c1 :: rest1) with
            | none => rw [hm] at h; simp at h
            | some q =>
              obtain ⟨vs, r1⟩ := q
              rw [hm] at h
              have := length_readElements (hin pv rfl) _ _ _ _ hm
              simp only [List.length_cons] at this
              exact length_of_some_eq (by simp only [List.length_cons]; omega) h
    rw [if_neg c3] at h
    by_cases c4 : c = 0x74
    · rw [if_pos c4] at h
      split at h
      · exact length_of_some_eq (by simp only [List.length_cons]; omega) h
      · simp at h
    rw [if_neg c4] at h
    by_cases c5 : c = 0x66
    · rw [if_pos c5] at h
      split at h
      · exact length_of_some_eq (by simp only [List.length_cons]; omega) h
      · simp at h
    rw [if_neg c5] at h
    by_cases c6 : c = 0x6E
    · rw [if_pos c6] at h
      split at h
      · exact length_of_some_eq (by simp only [List.length_cons]; omega) h
      · simp at h
    rw [if_neg c6] at h
    cases hn : scanNumber (c :: rest) with
    | none => rw [hn] at h; simp at h
    | some r1 =>
      rw [hn] at h
      exact length_of_some_eq (length_scanNumber hn) h

/-- Reading a value takes at least one byte of the input. -/
theorem length_readValue : ∀ (depth : Nat) (s : Bytes) (v : Value) (r : Bytes),
    readValue depth s = some (v, r) → r.length < s.length := by
  intro depth
  induction depth with
  | zero =>
    intro s v r h
    rw [readValue] at h
    exact length_readValueWith none (by simp) s v r h
  | succ d ih =>
    intro s v r h
    rw [readValue] at h
    refine length_readValueWith (some (readValue d)) ?_ s v r h
    intro pv hpv
    simp only [Option.some.injEq] at hpv
    exact hpv ▸ ih

/-- The fuel `readValueWith` gives the loop over the elements of an array, the length of
the input after the opening bracket, is enough: with any more fuel the loop returns the
same. -/
theorem readElements_enough (depth : Nat) (rest : Bytes) (k : Nat) :
    readElements (readValue depth) (rest.length + k) (skipSpace rest) =
      readElements (readValue depth) rest.length (skipSpace rest) := by
  induction k with
  | zero => rfl
  | succ k ih =>
    rw [← ih, ← Nat.add_assoc]
    exact readElements_fuel (length_readValue depth) _ _
      (by have := length_skipSpace rest; omega)

/-- The fuel `readValueWith` gives the loop over the members of an object is enough. -/
theorem readMembers_enough (depth : Nat) (rest : Bytes) (k : Nat) :
    readMembers (readValue depth) (rest.length + k) (skipSpace rest) =
      readMembers (readValue depth) rest.length (skipSpace rest) := by
  induction k with
  | zero => rfl
  | succ k ih =>
    rw [← ih, ← Nat.add_assoc]
    exact readMembers_fuel (length_readValue depth) _ _
      (by have := length_skipSpace rest; omega)

end Json

/-! ## Lemmas: decoded records are valid UTF-8 -/

namespace Json

theorem get_set (r : IPInfo) (s : Bytes) (f g : Field) :
    g.get (f.set r s) = if g = f then s else g.get r := by
  cases f <;> cases g <;> rfl

theorem valid_zero : IPInfo.Valid {} := by
  intro f; cases f <;> exact valid_nil

theorem valid_set {r : IPInfo} {s : Bytes} (hr : r.Valid) (hs : Utf8.Valid s) (f : Field) :
    (f.set r s).Valid := by
  intro g
  rw [get_set]
  split_ifs
  · exact hs
  · exact hr g

theorem storeString_valid {v : Value} {old : Bytes} (hv : v.WellFormed)
    (ho : Utf8.Valid old) : Utf8.Valid (storeString v old).1 := by
  cases hv with
  | string s h => exact h
  | _ => exact ho

theorem storeMember_valid {acc : IPInfo × Bool} {m : Bytes × Value} (ha : acc.1.Valid)
    (hm : m.2.WellFormed) : (storeMember acc m).1.Valid := by
  unfold storeMember
  cases lookupField m.1 with
  | none => exact ha
  | some f => exact valid_set ha (storeString_valid hm (ha f)) f

theorem foldl_storeMember_valid (ms : List (Bytes × Value)) :
    ∀ (acc : IPInfo × Bool), acc.1.Valid → (∀ m ∈ ms, m.2.WellFormed) →
      (ms.foldl storeMember acc).1.Valid := by
  induction ms with
  | nil => intro acc ha _; exact ha
  | cons m ms ih =>
    intro acc ha hm
    rw [List.foldl_cons]
    exact ih _ (storeMember_valid ha (hm m (by simp))) (fun x hx => hm x (by simp [hx]))

theorem storeIPInfo_valid {v : Value} {old : IPInfo} (hv : v.WellFormed) (ho : old.Valid) :
    (storeIPInfo v old).1.Valid := by
  cases hv with
  | object ms h => exact foldl_storeMember_valid ms _ ho h
  | _ => exact ho

theorem storeElements_valid (vs : List Value) :
    ∀ (old : List IPInfo), (∀ x ∈ vs, x.WellFormed) → (∀ r ∈ old, r.Valid) →
      ∀ r ∈ (storeElements vs old).1, r.Valid := by
  induction vs with
  | nil => intro old _ _ r hr; simp [storeElements] at hr
  | cons v vs ih =>
    intro old hv ho r hr
    rw [storeElements] at hr
    rcases List.mem_cons.1 hr with e | e
    · rw [e]
      refine storeIPInfo_valid (hv v (by simp)) ?_
      cases old with
      | nil => exact valid_zero
      | cons a _ => exact ho a (by simp)
    · refine ih old.tail (fun x hx => hv x (by simp [hx])) ?_ r e
      intro x hx
      exact ho x (List.mem_of_mem_tail hx)

theorem storeSlice_valid {v : Value} {old : Option (List IPInfo)} (hv : v.WellFormed)
    (ho : ∀ r ∈ old.getD [], r.Valid) : ∀ r ∈ (storeSlice v old).1.getD [], r.Valid := by
  cases hv with
  | array xs h => exact storeElements_valid xs _ h ho
  | null => intro r hr; simp [storeSlice] at hr
  | _ => exact ho

theorem storeListMember_valid {acc : IPList × Bool} {m : Bytes × Value} (ha : acc.1.Valid)
    (hm : m.2.WellFormed) : (storeListMember acc m).1.Valid := by
  unfold storeListMember
  split_ifs
  · exact storeSlice_valid hm ha
  · exact ha

theorem foldl_storeListMember_valid (ms : List (Bytes × Value)) :
    ∀ (acc : IPList × Bool), acc.1.Valid → (∀ m ∈ ms, m.2.WellFormed) →
      (ms.foldl storeListMember acc).1.Valid := by
  induction ms with
  | nil => intro acc ha _; exact ha
  | cons m ms ih =>
    intro acc ha hm
    rw [List.foldl_cons]
    exact ih _ (storeListMember_valid ha (hm m (by simp))) (fun x hx => hm x (by simp [hx]))

theorem storeIPList_valid {v : Value} {old : IPList} (hv : v.WellFormed) (ho : old.Valid) :
    (storeIPList v old).1.Valid := by
  cases hv with
  | object ms h => exact foldl_storeListMember_valid ms _ ho h
  | _ => exact ho

/-- A record decoded from JSON holds valid UTF-8 only. -/
theorem unmarshalIPInfo_valid {data : Bytes} {r : IPInfo}
    (h : unmarshalIPInfo data = .ok r) : r.Valid := by
  unfold unmarshalIPInfo at h
  cases hp : parse data with
  | none => rw [hp] at h; simp at h
  | some v =>
    rw [hp] at h
    simp only [] at h
    split_ifs at h
    simp only [Except.ok.injEq] at h
    exact h ▸ storeIPInfo_valid (parse_wf hp) valid_zero

/-- A collection decoded from JSON holds valid UTF-8 only. -/
theorem unmarshalIPList_valid {data : Bytes} {l : IPList}
    (h : unmarshalIPList data = .ok l) : l.Valid := by
  unfold unmarshalIPList at h
  cases hp : parse data with
  | none => rw [hp] at h; simp at h
  | some v =>
    rw [hp] at h
    simp only [] at h
    split_ifs at h
    simp only [Except.ok.injEq] at h
    exact h ▸ storeIPList_valid (parse_wf hp) (by intro r hr; simp [IPList.records] at hr)

end Json

/-! ## Lemmas: a written document is read back -/

namespace Json
open Utf8

theorem ascii_lbrace : ascii "\x7b" = [0x7B] := by decide
theorem ascii_rbrace : ascii "\x7d" = [0x7D] := by decide
theorem ascii_lbracket : ascii "[" = [0x5B] := by decide
theorem ascii_rbracket : ascii "]" = [0x5D] := by decide
theorem ascii_comma : ascii "," = [0x2C] := by decide
theorem ascii_colon : ascii ": " = [0x3A, 0x20] := by decide
theorem ascii_null : ascii "null" = [0x6E, 0x75, 0x6C, 0x6C] := by decide
theorem ascii_empty : ascii "[]" = [0x5B, 0x5D] := by decide

theorem skipSpace_replicate (k : Nat) (X : Bytes) :
    skipSpace (List.replicate k 0x20 ++ X) = skipSpace X := by
  induction k with
  | zero => rfl
  | succ k ih => simpa [List.replicate_succ, skipSpace, isSpace] using ih

theorem skipSpace_newline (n : Nat) (X : Bytes) : skipSpace (newline n ++ X) = skipSpace X := by
  unfold newline
  rw [List.cons_append, skipSpace, if_pos (by decide), skipSpace_replicate]

theorem skipSpace_cons {c : Nat} (X : Bytes) (h : isSpace c = false) :
    skipSpace (c :: X) = c :: X := by
  rw [skipSpace, h]; rfl

theorem appendString_append (s tl : Bytes) :
    appendString s ++ tl = 0x22 :: (quoteBody 0 s ++ 0x22 :: tl) := by
  simp [appendString]

theorem readValueWith_string (inner : Option (Bytes → Option (Value × Bytes)))
    (s tl : Bytes) :
    readValueWith inner (appendString s ++ tl) = some (Value.string (coerce 0 s), tl) := by
  rw [appendString_append]
  unfold readValueWith
  simp only []
  rw [if_pos (by trivial), readString_appendString]

theorem readValue_succ (d : Nat) : readValue (d + 1) = readValueWith (some (readValue d)) := rfl

theorem readValue_string (d : Nat) (s tl : Bytes) :
    readValue d (appendString s ++ tl) = some (Value.string (coerce 0 s), tl) := by
  cases d with
  | zero => exact readValueWith_string none s tl
  | succ d => exact readValueWith_string _ s tl

theorem reads_string (d : Nat) (s : Bytes) :
    Reads (readValue d) (appendString s) (Value.string (coerce 0 s)) where
  read := readValue_string d s
  start := fun tl => by rw [appendString_append]; exact skipSpace_cons _ (by decide)

theorem readMembers_newline (pv : Bytes → Option (Value × Bytes)) (fuel n : Nat) (X : Bytes) :
    readMembers pv fuel (newline n ++ X) = readMembers pv fuel X := by
  cases fuel with
  | zero => rfl
  | succ f => rw [readMembers, readMembers, skipSpace_newline]

theorem readElements_newline (pv : Bytes → Option (Value × Bytes)) (fuel n : Nat) (X : Bytes) :
    readElements pv fuel (newline n ++ X) = readElements pv fuel X := by
  cases fuel with
  | zero => rfl
  | succ f => rw [readElements, readElements, skipSpace_newline]

/-- A member followed by a comma. -/
theorem readMembers_comma {pv : Bytes → Option (Value × Bytes)} {E : Bytes} {v : Value}
    (h : Reads pv E v) (fuel : Nat) (k X : Bytes) :
    readMembers pv (fuel + 1) (appendString k ++ (ascii ": " ++ (E ++ (ascii "," ++ X)))) =
      (readMembers pv fuel X).map (fun p => ((coerce 0 k, v) :: p.1, p.2)) := by
  rw [readMembers, appendString_append, skipSpace_cons _ (by decide)]
  simp only []
  rw [if_pos (by trivial), readString_appendString]
  simp only [ascii_colon, ascii_comma, List.cons_append, List.nil_append]
  rw [skipSpace_cons _ (by decide)]
  simp only []
  rw [if_pos (by trivial), skipSpace, if_pos (by decide), h.start, h.read]
  simp only []
  rw [skipSpace_cons _ (by decide)]
  simp only []
  rw [if_pos (by trivial)]
  cases readMembers pv fuel X <;> rfl

/-- The last member of an object. -/
theorem readMembers_last {pv : Bytes → Option (Value × Bytes)} {E : Bytes} {v : Value}
    (h : Reads pv E v) (fuel n : Nat) (k tl : Bytes) :
    readMembers pv (fuel + 1)
        (appendString k ++ (ascii ": " ++ (E ++ (newline n ++ (ascii "\x7d" ++ tl))))) =
      some ([(coerce 0 k, v)], tl) := by
  rw [readMembers, appendString_append, skipSpace_cons _ (by decide)]
  simp only []
  rw [if_pos (by trivial), readString_appendString]
  simp only [ascii_colon, ascii_rbrace, List.cons_append, List.nil_append]
  rw [skipSpace_cons _ (by decide)]
  simp only []
  rw [if_pos (by trivial), skipSpace, if_pos (by decide), h.start, h.read]
  simp only []
  rw [skipSpace_newline, skipSpace_cons _ (by decide)]
  simp only []
  rw [if_neg (by decide), if_pos (by trivial)]

theorem coerce_name (f : Field) : coerce 0 f.name = f.name := by
  cases f <;> decide

/-- The members of a record, from the quote of the first key. -/
theorem readMembers_record {pv : Bytes → Option (Value × Bytes)}
    (hpv : ∀ s, Reads pv (appendString s) (Value.string (coerce 0 s)))
    (r : IPInfo) (fuel : Nat) (hf : 6 ≤ fuel) (tl : Bytes) :
    readMembers pv fuel
      (appendString (Field.name .ip) ++ (ascii ": " ++ (appendString r.IP ++ (ascii "," ++ (
      newline 3 ++ (appendString (Field.name .city) ++ (ascii ": " ++ (appendString r.City ++ (
      ascii "," ++ (newline 3 ++ (appendString (Field.name .region) ++ (ascii ": " ++ (
      appendString r.Region ++ (ascii "," ++ (newline 3 ++ (
      appendString (Field.name .country) ++ (ascii ": " ++ (appendString r.Country ++ (
      ascii "," ++ (newline 3 ++ (appendString (Field.name .location) ++ (ascii ": " ++ (
      appendString r.Location ++ (ascii "," ++ (newline 3 ++ (
      appendString (Field.name .isp) ++ (ascii ": " ++ (appendString r.ISP ++ (newline 2 ++ (
      ascii "\x7d" ++ (tl))))))))))))))))))))))))))))))) =
      some (Field.all.map (fun f => (f.name, Value.string (coerce 0 (f.get r)))), tl) := by
  obtain ⟨f, rfl⟩ : ∃ f, fuel = f + 6 := ⟨fuel - 6, by omega⟩
  rw [readMembers_comma (hpv _), readMembers_newline, readMembers_comma (hpv _),
    readMembers_newline, readMembers_comma (hpv _), readMembers_newline,
    readMembers_comma (hpv _), readMembers_newline, readMembers_comma (hpv _),
    readMembers_newline, readMembers_last (hpv _)]
  simp only [coerce_name]
  rfl

theorem encodeIPInfo_append (r : IPInfo) (tl : Bytes) :
    encodeIPInfo r ++ tl = 0x7B :: (newline 3 ++
      (appendString (Field.name .ip) ++ (ascii ": " ++ (appendString r.IP ++ (ascii "," ++ (
      newline 3 ++ (appendString (Field.name .city) ++ (ascii ": " ++ (appendString r.City ++ (
      ascii "," ++ (newline 3 ++ (appendString (Field.name .region) ++ (ascii ": " ++ (
      appendString r.Region ++ (ascii "," ++ (newline 3 ++ (
      appendString (Field.name .country) ++ (ascii ": " ++ (appendString r.Country ++ (
      ascii "," ++ (newline 3 ++ (appendString (Field.name .location) ++ (ascii ": " ++ (
      appendString r.Location ++ (ascii "," ++ (newline 3 ++ (
      appendString (Field.name .isp) ++ (ascii ": " ++ (appendString r.ISP ++ (newline 2 ++ (
      ascii "\x7d" ++ (tl)))))))))))))))))))))))))))))))) := by
  simp only [encodeIPInfo, encodeField, Field.get, ascii_lbrace, List.append_assoc,
    List.cons_append, List.nil_append]

/-- Opening an object whose first key follows a line break. -/
theorem readValueWith_object (pv : Bytes → Option (Value × Bytes)) (n : Nat) (k Y : Bytes) :
    readValueWith (some pv) (0x7B :: (newline n ++ (appendString k ++ Y))) =
      (readMembers pv (newline n ++ (appendString k ++ Y)).length (appendString k ++ Y)).map
        (fun p => (Value.object p.1, p.2)) := by
  generalize hX : newline n ++ (appendString k ++ Y) = X
  have hs : skipSpace X = appendString k ++ Y := by
    rw [← hX, skipSpace_newline, appendString_append, skipSpace_cons _ (by decide)]
  unfold readValueWith
  simp only []
  rw [if_neg (by decide), if_pos (by trivial)]
  rw [hs, appendString_append]
  simp only []
  rw [if_neg (by decide)]
  cases readMembers pv (List.length X) (0x22 :: (quoteBody 0 k ++ 0x22 :: Y)) <;> rfl

/-- Opening an array whose first element is an object that follows a line break. -/
theorem readValueWith_array (pv : Bytes → Option (Value × Bytes)) (n : Nat) (Z : Bytes) :
    readValueWith (some pv) (0x5B :: (newline n ++ 0x7B :: Z)) =
      (readElements pv (newline n ++ 0x7B :: Z).length (0x7B :: Z)).map
        (fun p => (Value.array p.1, p.2)) := by
  generalize hX : newline n ++ 0x7B :: Z = X
  have hs : skipSpace X = 0x7B :: Z := by
    rw [← hX, skipSpace_newline, skipSpace_cons _ (by decide)]
  unfold readValueWith
  simp only []
  rw [if_neg (by decide), if_neg (by decide), if_pos (by trivial)]
  rw [hs]
  simp only []
  rw [if_neg (by decide)]
  cases readElements pv (List.length X) (0x7B :: Z) <;> rfl

/-- A record written by the encoder is read back as its tree. -/
theorem reads_record (d : Nat) (r : IPInfo) :
    Reads (readValue (d + 1)) (encodeIPInfo r) (recordValue r) where
  read := by
    intro tl
    rw [encodeIPInfo_append, readValue_succ, readValueWith_object,
      readMembers_record (fun s => reads_string d s) r _ ?_ tl]
    · rfl
    · simp only [List.length_append, newline, List.length_cons, List.length_replicate]
      omega
  start := by
    intro tl
    rw [encodeIPInfo_append]
    exact skipSpace_cons _ (by decide)

theorem length_encodeMore (rs : List IPInfo) : rs.length ≤ (encodeMore rs).length := by
  induction rs with
  | nil => simp [encodeMore]
  | cons r rs ih =>
    simp only [encodeMore, List.length_append, List.length_cons, ascii_comma, List.length_nil]
    omega

/-- The elements of an array of records, from the first record. -/
theorem readElements_records {pv : Bytes → Option (Value × Bytes)}
    (hpv : ∀ r, Reads pv (encodeIPInfo r) (recordValue r)) (rs : List IPInfo) :
    ∀ (r : IPInfo) (fuel : Nat) (tl : Bytes), rs.length + 1 ≤ fuel →
      readElements pv fuel
        (encodeIPInfo r ++ (encodeMore rs ++ (newline 1 ++ (ascii "]" ++ tl)))) =
        some ((r :: rs).map recordValue, tl) := by
  induction rs with
  | nil =>
    intro r fuel tl hf
    obtain ⟨f, rfl⟩ : ∃ f, fuel = f + 1 := ⟨fuel - 1, by omega⟩
    rw [readElements, (hpv r).start, (hpv r).read]
    simp only [encodeMore, List.nil_append, ascii_rbracket, List.cons_append]
    rw [skipSpace_newline, skipSpace_cons _ (by decide)]
    simp only []
    rw [if_neg (by decide), if_pos (by trivial)]
    rfl
  | cons r1 rs ih =>
    intro r fuel tl hf
    obtain ⟨f, rfl⟩ : ∃ f, fuel = f + 1 := ⟨fuel - 1, by omega⟩
    rw [readElements, (hpv r).start, (hpv r).read]
    simp only [encodeMore, ascii_comma, List.cons_append, List.nil_append, List.append_assoc]
    rw [skipSpace_cons _ (by decide)]
    simp only []
    rw [if_pos (by trivial), readElements_newline,
      ih r1 f tl (by simp only [List.length_cons] at hf; omega)]
    rfl

/-- A slice written by the encoder is read back as its tree. -/
theorem reads_slice (d : Nat) (s : Option (List IPInfo)) :
    Reads (readValue (d + 2)) (encodeSlice s) (sliceValue s) where
  read := by
    intro tl
    cases s with
    | none =>
      rw [readValue_succ]
      simp [encodeSlice, ascii_null, readValueWith, sliceValue]
    | some rs =>
      cases rs with
      | nil =>
        rw [readValue_succ]
        simp [encodeSlice, ascii_empty, readValueWith, sliceValue, skipSpace, isSpace]
      | cons r rs =>
        rw [readValue_succ]
        have e : encodeSlice (some (r :: rs)) ++ tl =
            0x5B :: (newline 2 ++ 0x7B :: ((encodeIPInfo r).tail ++
              (encodeMore rs ++ (newline 1 ++ (ascii "]" ++ tl))))) := by
          simp [encodeSlice, ascii_lbracket, encodeIPInfo, ascii_lbrace]
        have e2 : 0x7B :: ((encodeIPInfo r).tail ++
              (encodeMore rs ++ (newline 1 ++ (ascii "]" ++ tl)))) =
            encodeIPInfo r ++ (encodeMore rs ++ (newline 1 ++ (ascii "]" ++ tl))) := by
          simp [encodeIPInfo, ascii_lbrace]
        rw [e, readValueWith_array, e2,
          readElements_records (fun r => reads_record d r) rs r _ tl ?_]
        · rfl
        · have := length_encodeMore rs
          simp only [List.length_append, newline, List.length_cons, List.length_replicate]
          omega
  start := by
    intro tl
    cases s with
    | none => simp [encodeSlice, ascii_null, skipSpace, isSpace]
    | some rs =>
      cases rs with
      | nil => simp [encodeSlice, ascii_empty, skipSpace, isSpace]
      | cons r rs => simp [encodeSlice, ascii_lbracket, skipSpace, isSpace]

theorem coerce_ips : coerce 0 (ascii "ips") = ascii "ips" := by decide

/-- The document written for a collection is read back as its tree. -/
theorem parse_encodeIPList (l : IPList) : parse (encodeIPList l) = some (listValue l) := by
  have e : encodeIPList l = 0x7B :: (newline 1 ++ (appendString (ascii "ips") ++
      (ascii ": " ++ (encodeSlice l.IPs ++ (newline 0 ++ (ascii "\x7d" ++ [])))))) := by
    simp [encodeIPList, ascii_lbrace]
  unfold parse
  rw [e, skipSpace_cons _ (by decide)]
  have d : maxNestingDepth = 9997 + 2 + 1 := rfl
  rw [d, readValue_succ, readValueWith_object]
  obtain ⟨f, hf⟩ : ∃ f, (newline 1 ++ (appendString (ascii "ips") ++
      (ascii ": " ++ (encodeSlice l.IPs ++ (newline 0 ++ (ascii "\x7d" ++ [])))))).length = f + 1 :=
    Nat.exists_eq_succ_of_ne_zero (by simp [newline])
  rw [hf, readMembers_last (reads_slice 9997 l.IPs), coerce_ips]
  rfl

theorem lookupField_name (f : Field) : lookupField f.name = some f := by
  cases f <;> decide

theorem storeIPInfo_recordValue (r old : IPInfo) :
    storeIPInfo (recordValue r) old = (coerceInfo r, false) := by
  simp only [storeIPInfo, recordValue, Field.all, List.map_cons, List.map_nil, List.foldl_cons,
    List.foldl_nil, storeMember, lookupField_name, storeString, Field.set, Field.get,
    Bool.or_false]
  rfl

theorem storeElements_recordValue (rs : List IPInfo) :
    ∀ old, storeElements (rs.map recordValue) old = (rs.map coerceInfo, false) := by
  induction rs with
  | nil => intro old; rfl
  | cons r rs ih =>
    intro old
    rw [List.map_cons, storeElements, storeIPInfo_recordValue, ih]
    rfl

theorem storeIPList_listValue (l : IPList) :
    storeIPList (listValue l) {} = (coerceList l, false) := by
  obtain ⟨ips⟩ := l
  cases ips with
  | none => simp [storeIPList, listValue, storeListMember, sliceValue, storeSlice, coerceList]
  | some rs =>
    simp [storeIPList, listValue, storeListMember, sliceValue, storeSlice, coerceList,
      storeElements_recordValue]

/-- Reading back what `json.MarshalIndent` wrote gives the collection, with every
string coerced to valid UTF-8. -/
theorem unmarshal_encode (l : IPList) : unmarshalIPList (encodeIPList l) = .ok (coerceList l) := by
  unfold unmarshalIPList
  rw [parse_encodeIPList]
  simp only []
  rw [storeIPList_listValue]
  rfl

theorem coerceInfo_of_valid {r : IPInfo} (h : r.Valid) : coerceInfo r = r := by
  have h1 : coerce 0 r.IP = r.IP := coerce_of_valid (h .ip)
  have h2 : coerce 0 r.City = r.City := coerce_of_valid (h .city)
  have h3 : coerce 0 r.Region = r.Region := coerce_of_valid (h .region)
  have h4 : coerce 0 r.Country = r.Country := coerce_of_valid (h .country)
  have h5 : coerce 0 r.Location = r.Location := coerce_of_valid (h .location)
  have h6 : coerce 0 r.ISP = r.ISP := coerce_of_valid (h .isp)
  unfold coerceInfo
  rw [h1, h2, h3, h4, h5, h6]

theorem map_coerceInfo_of_valid : ∀ (rs : List IPInfo), (∀ r ∈ rs, r.Valid) →
    rs.map coerceInfo = rs
  | [], _ => rfl
  | r :: rs, h => by
    rw [List.map_cons, coerceInfo_of_valid (h r (by simp)),
      map_coerceInfo_of_valid rs (fun x hx => h x (by simp [hx]))]

theorem coerceList_of_valid {l : IPList} (h : l.Valid) : coerceList l = l := by
  obtain ⟨ips⟩ := l
  cases ips with
  | none => rfl
  | some rs =>
    have := map_coerceInfo_of_valid rs h
    simp only [coerceList, Option.map_some', this]

/-- Reading back what `json.MarshalIndent` wrote for a collection of valid UTF-8 gives
the collection. -/
theorem unmarshal_encode_of_valid {l : IPList} (h : l.Valid) :
    unmarshalIPList (encodeIPList l) = .ok l := by
  rw [unmarshal_encode, coerceList_of_valid h]

end Json

/-! ## Lemmas: the functions of the program -/

theorem getIPInfo_ok {env : Env} {ip body : Bytes} {d : IPInfo} (w : World)
    (hget : env.upstream (ascii "http://ip-api.com/json/" ++ ip) = .body body) (hdec : unmarshalIPInfo body = .ok d) :
    getIPInfo env ip w = (some (trackedRecord ip d),
      { w with requests := w.requests ++ [ascii "http://ip-api.com/json/" ++ ip] }) := by
  simp only [getIPInfo, httpGet, hget, hdec]
  rfl

theorem loadIPList_readFails {env : Env} {e : GoError} (w : World)
    (h : env.readFails = some e) : loadIPList env w = ({}, w) := by
  simp only [loadIPList, readFile, h]

theorem loadIPList_absent {env : Env} (w : World) (h : env.readFails = none)
    (hf : w.file = none) : loadIPList env w = ({}, w) := by
  simp only [loadIPList, readFile, h, hf]

theorem loadIPList_undecodable {env : Env} (w : World) {data : Bytes} {e : GoError}
    (h : env.readFails = none) (hf : w.file = some data)
    (hd : unmarshalIPList data = .error e) :
    loadIPList env w = ({}, w.printlnErr "Failed to unmarshal IP list:" e) := by
  simp only [loadIPList, readFile, h, hf, hd]

theorem loadIPList_decoded {env : Env} (w : World) {data : Bytes} {l : IPList}
    (h : env.readFails = none) (hf : w.file = some data)
    (hd : unmarshalIPList data = .ok l) : loadIPList env w = (l, w) := by
  simp only [loadIPList, readFile, h, hf, hd]

/-- The four ways `loadIPList` can go. -/
theorem loadIPList_cases (env : Env) (w : World) :
    loadIPList env w = ({}, w) ∨
    (∃ data e, env.readFails = none ∧ w.file = some data ∧ unmarshalIPList data = .error e ∧
      loadIPList env w = ({}, w.printlnErr "Failed to unmarshal IP list:" e)) ∨
    (∃ data l, env.readFails = none ∧ w.file = some data ∧ unmarshalIPList data = .ok l ∧
      loadIPList env w = (l, w)) := by
  cases hr : env.readFails with
  | some e => exact Or.inl (loadIPList_readFails w hr)
  | none =>
    cases hf : w.file with
    | none => exact Or.inl (loadIPList_absent _ hr hf)
    | some data =>
      cases hd : unmarshalIPList data with
      | error e => exact Or.inr (Or.inl ⟨data, e, rfl, rfl, hd, loadIPList_undecodable _ hr hf hd⟩)
      | ok l => exact Or.inr (Or.inr ⟨data, l, rfl, rfl, hd, loadIPList_decoded _ hr hf hd⟩)

theorem loadIPList_file (env : Env) (w : World) : (loadIPList env w).2.file = w.file := by
  rcases loadIPList_cases env w with h | ⟨_, _, _, _, _, h⟩ | ⟨_, _, _, _, _, h⟩
  · rw [h]
  · rw [h]; rfl
  · rw [h]

theorem loadIPList_fst (env : Env) {w v : World} (h : w.file = v.file) :
    (loadIPList env w).1 = (loadIPList env v).1 := by
  cases hr : env.readFails with
  | some e => rw [loadIPList_readFails w hr, loadIPList_readFails v hr]
  | none =>
    cases hf : v.file with
    | none => rw [loadIPList_absent _ hr (h.trans hf), loadIPList_absent _ hr hf]
    | some data =>
      cases hd : unmarshalIPList data with
      | error e =>
        rw [loadIPList_undecodable _ hr (h.trans hf) hd, loadIPList_undecodable _ hr hf hd]
      | ok l => rw [loadIPList_decoded _ hr (h.trans hf) hd, loadIPList_decoded _ hr hf hd]

theorem valid_empty : IPList.Valid {} := by
  intro r hr; simp [IPList.records] at hr

theorem loadIPList_valid (env : Env) (w : World) : (loadIPList env w).1.Valid := by
  rcases loadIPList_cases env w with h | ⟨_, _, _, _, _, h⟩ | ⟨_, _, _, _, hd, h⟩ <;> rw [h]
  · exact valid_empty
  · exact valid_empty
  · exact unmarshalIPList_valid hd

theorem loadIPList_encode (env : Env) (hr : env.readFails = none) (l : IPList) (w : World)
    (hf : w.file = some (encodeIPList l)) : (loadIPList env w).1 = coerceList l := by
  rw [loadIPList_decoded _ hr hf (unmarshal_encode l)]

theorem saveIPInfo_file (env : Env) (hw : env.writeFails = none) (r : IPInfo) (w : World) :
    (saveIPInfo env r w).file =
      some (encodeIPList { IPs := some ((loadIPList env w).1.records ++ [r]) }) := by
  simp only [saveIPInfo, marshalIndent, writeFile, hw, goAppend, IPList.records]

theorem trackCmd_ok {env : Env} {ip body : Bytes} {d : IPInfo} (w : World)
    (hget : env.upstream (ascii "http://ip-api.com/json/" ++ ip) = .body body) (hdec : unmarshalIPInfo body = .ok d) :
    trackCmd env [ip] w =
      (saveIPInfo env (trackedRecord ip d)
        { w with requests := w.requests ++ [ascii "http://ip-api.com/json/" ++ ip] }).println
        "IP information saved successfully." := by
  simp only [trackCmd, List.length_singleton, ne_eq, not_true_eq_false, if_false,
    List.headD_cons, getIPInfo_ok w hget hdec]

theorem trackedRecord_valid {ip : Bytes} {d : IPInfo} (hip : Utf8.Valid ip) (hd : d.Valid) :
    (trackedRecord ip d).Valid := by
  have hc : Utf8.Valid (ascii ", ") := valid_of_ascii _ (by decide)
  intro f
  cases f
  · exact hip
  · exact hd .city
  · exact hd .region
  · exact hd .country
  · exact valid_append (valid_append (valid_append (valid_append (hd .city) hc) (hd .region)) hc)
      (hd .country)
  · exact hd .isp

/-- Loading the store after a successful `track`: the records loaded before, then the
new record, each as it is read back from JSON. -/
theorem load_after_track {env : Env} {ip body : Bytes} {d : IPInfo} (w : World)
    (hread : env.readFails = none) (hwrite : env.writeFails = none)
    (hget : env.upstream (ascii "http://ip-api.com/json/" ++ ip) = .body body) (hdec : unmarshalIPInfo body = .ok d) :
    (loadIPList env (trackCmd env [ip] w)).1.records =
      (loadIPList env w).1.records ++ [coerceInfo (trackedRecord ip d)] := by
  have hf : (trackCmd env [ip] w).file =
      some (encodeIPList { IPs := some ((loadIPList env w).1.records ++ [trackedRecord ip d]) }) := by
    rw [trackCmd_ok w hget hdec]
    have hl : (loadIPList env
        { w with requests := w.requests ++ [ascii "http://ip-api.com/json/" ++ ip] }).1 =
        (loadIPList env w).1 := loadIPList_fst env rfl
    exact (saveIPInfo_file env hwrite _ _).trans (by rw [hl])
  rw [loadIPList_encode env hread _ _ hf]
  simp only [coerceList, Option.map_some', IPList.records, Option.getD_some, List.map_append,
    List.map_cons, List.map_nil]
  have := map_coerceInfo_of_valid _ (loadIPList_valid env w)
  simp only [IPList.records] at this
  rw [this]

/-! ## The claims -/

set_option maxRecDepth 1000000 in
/-- C1, as stated, fails for an argument that is not valid UTF-8: with the stub upstream
and no store file, tracking the one-byte string `0xFF` succeeds, but the record loaded
afterwards is not the tracked record (its `ip` is U+FFFD, not the argument). -/
theorem track_roundtrip_not_for_all_strings :
    stubEnv.readFails = none ∧ stubEnv.writeFails = none ∧
    stubEnv.upstream (ascii "http://ip-api.com/json/" ++ [0xFF]) = .body stubBody ∧
    unmarshalIPInfo stubBody = .ok stubDecoded ∧
    (loadIPList stubEnv {}).1.records = [] ∧
    (loadIPList stubEnv (trackCmd stubEnv [[0xFF]] {})).1.records ≠
      [] ++ [trackedRecord [0xFF] stubDecoded] ∧
    (loadIPList stubEnv (trackCmd stubEnv [[0xFF]] {})).1.records =
      [{ trackedRecord [0xFF] stubDecoded with IP := [0xEF, 0xBF, 0xBD] }] := by
  decide

/-- C1, amended: when the store can be read and written, the response decodes to `d`
and the argument `ip` is valid UTF-8, loading the store after `track ip` yields the
records loaded before followed by the tracked record, and after a second identical
`track` followed by two copies of it. -/
theorem track_appends (env : Env) (w : World) (ip body : Bytes) (d : IPInfo)
    (hread : env.readFails = none) (hwrite : env.writeFails = none)
    (hget : env.upstream (ascii "http://ip-api.com/json/" ++ ip) = .body body)
    (hdec : unmarshalIPInfo body = .ok d) (hip : Utf8.Valid ip) :
    (loadIPList env (trackCmd env [ip] w)).1.records =
      (loadIPList env w).1.records ++ [trackedRecord ip d] ∧
    (loadIPList env (trackCmd env [ip] (trackCmd env [ip] w))).1.records =
      (loadIPList env w).1.records ++ [trackedRecord ip d, trackedRecord ip d] := by
  have hv : coerceInfo (trackedRecord ip d) = trackedRecord ip d :=
    coerceInfo_of_valid (trackedRecord_valid hip (unmarshalIPInfo_valid hdec))
  have h1 := load_after_track w hread hwrite hget hdec
  have h2 := load_after_track (trackCmd env [ip] w) hread hwrite hget hdec
  rw [hv] at h1 h2
  refine ⟨h1, ?_⟩
  rw [h2, h1, List.append_assoc]
  rfl

set_option maxRecDepth 1000000 in
/-- C1, witness: tracking 8.8.8.8 with the stub response on an absent store. -/
theorem track_appends_witness :
    stubEnv.readFails = none ∧ stubEnv.writeFails = none ∧
    stubEnv.upstream (ascii "http://ip-api.com/json/" ++ ascii "8.8.8.8") = .body stubBody ∧
    unmarshalIPInfo stubBody = .ok stubDecoded ∧
    Utf8.Valid (ascii "8.8.8.8") ∧
    (loadIPList stubEnv {}).1.records = [] ∧
    trackedRecord (ascii "8.8.8.8") stubDecoded =
      { IP := ascii "8.8.8.8", City := ascii "Mountain View", Region := ascii "CA",
        Country := ascii "US", Location := ascii "Mountain View, CA, US",
        ISP := ascii "Google" } ∧
    ((loadIPList stubEnv (trackCmd stubEnv [ascii "8.8.8.8"] {})).1.records =
      (loadIPList stubEnv {}).1.records ++ [trackedRecord (ascii "8.8.8.8") stubDecoded] ∧
    (loadIPList stubEnv (trackCmd stubEnv [ascii "8.8.8.8"]
        (trackCmd stubEnv [ascii "8.8.8.8"] {}))).1.records =
      (loadIPList stubEnv {}).1.records ++
        [trackedRecord (ascii "8.8.8.8") stubDecoded,
          trackedRecord (ascii "8.8.8.8") stubDecoded]) :=
  ⟨rfl, rfl, rfl, by decide, valid_of_ascii _ (by decide), by decide, by decide,
    track_appends stubEnv {} (ascii "8.8.8.8") stubBody stubDecoded rfl rfl rfl (by decide)
      (valid_of_ascii _ (by decide))⟩

/-- C2: when the response body decodes, `getIPInfo` returns a record, and its `ip` is the
input string, whatever string that is and whatever `ip` the body carried. -/
theorem getIPInfo_ip_is_argument (env : Env) (w : World) (ip body : Bytes) (d : IPInfo)
    (hget : env.upstream (ascii "http://ip-api.com/json/" ++ ip) = .body body)
    (hdec : unmarshalIPInfo body = .ok d) :
    ∃ r, (getIPInfo env ip w).1 = some r ∧ r.IP = ip :=
  ⟨trackedRecord ip d, by rw [getIPInfo_ok w hget hdec], rfl⟩

set_option maxRecDepth 1000000 in
/-- C2, witness: the body says `1.1.1.1`, the argument is ` 8.8.8.8` with a leading
blank, and the record holds the argument. -/
theorem getIPInfo_ip_is_argument_witness :
    echoEnv.upstream (ascii "http://ip-api.com/json/" ++ ascii " 8.8.8.8") = .body echoBody ∧
    unmarshalIPInfo echoBody = .ok echoDecoded ∧
    echoDecoded.IP = ascii "1.1.1.1" ∧
    ∃ r, (getIPInfo echoEnv (ascii " 8.8.8.8") {}).1 = some r ∧ r.IP = ascii " 8.8.8.8" :=
  ⟨rfl, by decide, rfl,
    getIPInfo_ip_is_argument echoEnv {} (ascii " 8.8.8.8") echoBody echoDecoded rfl (by decide)⟩

/-- C3: when the response body decodes to `d`, the record `getIPInfo` returns has the
city, region and country of `d`, and its `location` is these three joined by a comma and
a space, whatever `location` the body carried. -/
theorem getIPInfo_location_is_derived (env : Env) (w : World) (ip body : Bytes) (d : IPInfo)
    (hget : env.upstream (ascii "http://ip-api.com/json/" ++ ip) = .body body)
    (hdec : unmarshalIPInfo body = .ok d) :
    ∃ r, (getIPInfo env ip w).1 = some r ∧
      r.City = d.City ∧ r.Region = d.Region ∧ r.Country = d.Country ∧
      r.Location = r.City ++ ascii ", " ++ r.Region ++ ascii ", " ++ r.Country :=
  ⟨trackedRecord ip d, by rw [getIPInfo_ok w hget hdec], rfl, rfl, rfl, rfl⟩

set_option maxRecDepth 1000000 in
/-- C3, witness: city Paris, no region, country France and a `location` of its own in
the body give the location `Paris, , France`; a body with no field gives `, , `. -/
theorem getIPInfo_location_is_derived_witness :
    echoEnv.upstream (ascii "http://ip-api.com/json/" ++ ascii "8.8.8.8") = .body echoBody ∧
    unmarshalIPInfo echoBody = .ok echoDecoded ∧
    echoDecoded.Location = ascii "elsewhere" ∧
    (getIPInfo echoEnv (ascii "8.8.8.8") {}).1.map (fun r => r.Location) =
      some (ascii "Paris, , France") ∧
    (getIPInfo { upstream := fun _ => .body (ascii "\x7b\x7d") } (ascii "8.8.8.8") {}).1.map
      (fun r => r.Location) = some (ascii ", , ") ∧
    ∃ r, (getIPInfo echoEnv (ascii "8.8.8.8") {}).1 = some r ∧
      r.City = echoDecoded.City ∧ r.Region = echoDecoded.Region ∧
      r.Country = echoDecoded.Country ∧
      r.Location = r.City ++ ascii ", " ++ r.Region ++ ascii ", " ++ r.Country :=
  ⟨rfl, by decide, rfl, by decide, by decide,
    getIPInfo_location_is_derived echoEnv {} (ascii "8.8.8.8") echoBody echoDecoded rfl
      (by decide)⟩

theorem getIPInfo_failure {env : Env} {ip : Bytes} {msg : String} {e : GoError} (w : World)
    (h : fetchFailure env ip = some (msg, e)) :
    getIPInfo env ip w =
      (none, World.printlnErr
        { w with requests := w.requests ++ [ascii "http://ip-api.com/json/" ++ ip] } msg e) := by
  unfold fetchFailure at h
  unfold getIPInfo httpGet
  simp only []
  cases hg : env.upstream (ascii "http://ip-api.com/json/" ++ ip) with
  | getError e1 =>
    rw [hg] at h
    simp only [Option.some.injEq, Prod.mk.injEq] at h
    rw [← h.1, ← h.2]
  | readError e1 =>
    rw [hg] at h
    simp only [Option.some.injEq, Prod.mk.injEq] at h
    rw [← h.1, ← h.2]
  | body b =>
    rw [hg] at h
    simp only [] at h ⊢
    cases hd : unmarshalIPInfo b with
    | error e1 =>
      rw [hd] at h
      simp only [Option.some.injEq, Prod.mk.injEq] at h
      rw [← h.1, ← h.2]
    | ok d => rw [hd] at h; simp at h

/-- C4: `track` with an argument count other than one, or with one argument and a failing
fetch, leaves the store file as it was (absent stays absent) and does not call
`WriteFile`.  In the first case it prints the usage line and does nothing else: no
request goes out.  In the second it makes its one request and prints the diagnostic of
the failure and the failure message. -/
theorem track_leaves_store (env : Env) (args : List Bytes) (w : World)
    (h : args.length ≠ 1 ∨ ∃ ip, args = [ip] ∧ fetchFailure env ip ≠ none) :
    (trackCmd env args w).file = w.file ∧ (trackCmd env args w).writes = w.writes ∧
    (args.length ≠ 1 →
      trackCmd env args w =
        { w with out := w.out ++ [.println "Usage: koppel track <ip_address>"] }) ∧
    (∀ ip msg e, args = [ip] → fetchFailure env ip = some (msg, e) →
      trackCmd env args w =
        { w with
          out := w.out ++ [.printlnErr msg e, .println "Failed to retrieve IP information."]
          requests := w.requests ++ [ascii "http://ip-api.com/json/" ++ ip] }) := by
  have usage : args.length ≠ 1 →
      trackCmd env args w =
        { w with out := w.out ++ [.println "Usage: koppel track <ip_address>"] } := by
    intro hn
    unfold trackCmd
    rw [if_pos hn]
    rfl
  have failure : ∀ ip msg e, args = [ip] → fetchFailure env ip = some (msg, e) →
      trackCmd env args w =
        { w with
          out := w.out ++ [.printlnErr msg e, .println "Failed to retrieve IP information."]
          requests := w.requests ++ [ascii "http://ip-api.com/json/" ++ ip] } := by
    intro ip msg e ha hf
    subst ha
    simp only [trackCmd, List.length_singleton, ne_eq, not_true_eq_false, if_false,
      List.headD_cons, getIPInfo_failure w hf, World.println, World.printlnErr,
      List.append_assoc, List.singleton_append]
  refine ⟨?_, ?_, usage, failure⟩
  · rcases h with hn | ⟨ip, ha, hf⟩
    · rw [usage hn]
    · cases hff : fetchFailure env ip with
      | none => exact absurd hff hf
      | some p => rw [failure ip p.1 p.2 ha hff]
  · rcases h with hn | ⟨ip, ha, hf⟩
    · rw [usage hn]
    · cases hff : fetchFailure env ip with
      | none => exact absurd hff hf
      | some p => rw [failure ip p.1 p.2 ha hff]

set_option maxRecDepth 1000000 in
/-- C4, witness: no argument and two arguments on a store with some content, and one
argument with the network down on an absent store. -/
theorem track_leaves_store_witness :
    ([] : List Bytes).length ≠ 1 ∧
    [ascii "8.8.8.8", ascii "1.1.1.1"].length ≠ 1 ∧
    fetchFailure offlineEnv (ascii "8.8.8.8") ≠ none ∧
    trackCmd stubEnv [] garbageWorld =
      { file := some (ascii "garbage")
        out := [.println "Usage: koppel track <ip_address>"] } ∧
    trackCmd stubEnv [ascii "8.8.8.8", ascii "1.1.1.1"] garbageWorld =
      { file := some (ascii "garbage")
        out := [.println "Usage: koppel track <ip_address>"] } ∧
    fetchFailure offlineEnv (ascii "8.8.8.8") =
      some ("Failed to retrieve IP information:", .netError 111) ∧
    trackCmd offlineEnv [ascii "8.8.8.8"] {} =
      { file := none
        out := [.printlnErr "Failed to retrieve IP information:" (.netError 111),
                .println "Failed to retrieve IP information."]
        requests := [ascii "http://ip-api.com/json/8.8.8.8"]
        writes := 0 } :=
  ⟨by decide, by decide, by decide,
    (track_leaves_store stubEnv [] garbageWorld (Or.inl (by decide))).2.2.1 (by decide),
    (track_leaves_store stubEnv [ascii "8.8.8.8", ascii "1.1.1.1"] garbageWorld
      (Or.inl (by decide))).2.2.1 (by decide),
    by decide,
    ((track_leaves_store offlineEnv [ascii "8.8.8.8"] {}
      (Or.inr ⟨ascii "8.8.8.8", rfl, by decide⟩)).2.2.2 (ascii "8.8.8.8")
      "Failed to retrieve IP information:" (.netError 111) rfl (by decide)).trans
      (by decide)⟩

theorem clearCmd_ok (env : Env) (w : World) (hw : env.writeFails = none) :
    clearCmd env w =
      { w with
        file := some (encodeIPList {})
        out := w.out ++ [.println "Tracked IP list cleared successfully."]
        writes := w.writes + 1 } := by
  simp only [clearCmd, clearIPList, marshalIndent, writeFile, hw, World.println]

/-- What `list` prints depends on the environment and the content of the store only,
and printing is all it does. -/
theorem listCmd_out (env : Env) (file : Option Bytes) :
    ∃ o, ∀ w : World, w.file = file → listCmd env w = { w with out := w.out ++ o } := by
  cases hr : env.readFails with
  | some e =>
    refine ⟨[.println "No tracked IP addresses."], fun w _ => ?_⟩
    simp only [listCmd, loadIPList_readFails _ hr]
    rfl
  | none =>
    cases file with
    | none =>
      refine ⟨[.println "No tracked IP addresses."], fun w hf => ?_⟩
      simp only [listCmd, loadIPList_absent w hr hf]
      rfl
    | some data =>
      cases hd : unmarshalIPList data with
      | error e =>
        refine ⟨[.printlnErr "Failed to unmarshal IP list:" e,
          .println "No tracked IP addresses."], fun w hf => ?_⟩
        simp only [listCmd, loadIPList_undecodable w hr hf hd]
        simp [IPList.records, World.println, World.printlnErr]
      | ok l =>
        by_cases hl : l.records.length = 0
        · refine ⟨[.println "No tracked IP addresses."], fun w hf => ?_⟩
          simp only [listCmd, loadIPList_decoded w hr hf hd, hl, if_true]
          rfl
        · refine ⟨[.render (appendRows
            { header := ["IP", "City", "Region", "Country", "ISP", "Location"], border := false }
            l.records)], fun w hf => ?_⟩
          simp only [listCmd, loadIPList_decoded w hr hf hd, hl, if_false]
          rfl

/-- C5: after a `clear` whose write succeeds, whatever the store held before, the file
holds the serialized empty collection, `loadIPList` decodes it to a collection of
length 0, and `list` prints the empty-list message and nothing else (no table). -/
theorem clear_then_list (env env1 : Env) (w : World) (hw : env.writeFails = none) :
    (clearCmd env w).file = some (encodeIPList {}) ∧
    (∃ l, unmarshalIPList (encodeIPList {}) = .ok l ∧ l.records.length = 0) ∧
    (env1.readFails = none →
      loadIPList env1 (clearCmd env w) = ({}, clearCmd env w)) ∧
    listCmd env1 (clearCmd env w) =
      { clearCmd env w with
        out := (clearCmd env w).out ++ [.println "No tracked IP addresses."] } := by
  have hdec : unmarshalIPList (encodeIPList {}) = .ok {} := unmarshal_encode {}
  rw [clearCmd_ok env w hw]
  refine ⟨rfl, ⟨{}, hdec, rfl⟩, fun hr => loadIPList_decoded _ hr rfl hdec, ?_⟩
  cases hr : env1.readFails with
  | some e =>
    simp only [listCmd, loadIPList_readFails _ hr]
    rfl
  | none =>
    rw [listCmd, loadIPList_decoded _ hr rfl hdec]
    rfl

set_option maxRecDepth 1000000 in
/-- C5, witness: `clear` and then `list` on a store whose content is not JSON. -/
theorem clear_then_list_witness :
    stubEnv.writeFails = none ∧
    listCmd stubEnv (clearCmd stubEnv garbageWorld) =
      { file := some (ascii "\x7b\n  \"ips\": null\n\x7d")
        out := [.println "Tracked IP list cleared successfully.",
                .println "No tracked IP addresses."]
        requests := []
        writes := 1 } :=
  ⟨rfl, (clear_then_list stubEnv stubEnv garbageWorld rfl).2.2.2.trans (by decide)⟩

/-- C6: all `list` does is print: the store file is as it was (no call of `WriteFile`,
no request), and what is printed is determined by the store, so a second `list` right
after the first prints the same again.  When the file is absent it prints the empty-list
message and the file is still absent. -/
theorem list_read_only (env : Env) (w : World) :
    (listCmd env w).file = w.file ∧ (listCmd env w).writes = w.writes ∧
    (∃ o, listCmd env w = { w with out := w.out ++ o } ∧
      listCmd env (listCmd env w) =
        { listCmd env w with out := (listCmd env w).out ++ o }) ∧
    listCmd env { w with file := none } =
      { w with file := none, out := w.out ++ [.println "No tracked IP addresses."] } := by
  obtain ⟨o, ho⟩ := listCmd_out env w.file
  have h1 := ho w rfl
  have h2 := ho (listCmd env w) (by rw [h1])
  refine ⟨by rw [h1], by rw [h1], ⟨o, h1, h2⟩, ?_⟩
  cases hr : env.readFails with
  | some e =>
    simp only [listCmd, loadIPList_readFails _ hr]
    rfl
  | none =>
    rw [listCmd, loadIPList_absent { w with file := none } hr rfl]
    rfl

set_option maxRecDepth 1000000 in
/-- C7, as stated, fails for `clear`: the document it writes has `null` as its `ips`
member, not the empty array; the file is not the serialized `[]` form. -/
theorem clear_writes_null_not_empty_array :
    stubEnv.writeFails = none ∧
    (clearCmd stubEnv {}).file = some (ascii "\x7b\n  \"ips\": null\n\x7d") ∧
    (clearCmd stubEnv {}).file ≠ some (ascii "\x7b\n  \"ips\": []\n\x7d") ∧
    parse (ascii "\x7b\n  \"ips\": null\n\x7d") ≠
      some (Value.object [(ascii "ips", Value.array [])]) := by
  refine ⟨rfl, by decide, by decide, ?_⟩
  have h : parse (encodeIPList {}) = some (listValue {}) := parse_encodeIPList {}
  have e : encodeIPList {} = ascii "\x7b\n  \"ips\": null\n\x7d" := by decide
  rw [← e, h]
  simp [listValue, sliceValue]

/-- C7, amended: a successful append leaves the file holding the two-space indented
document of the loaded records followed by the new one, a JSON object whose only member
`ips` is an array of one record object more than were loaded; a successful `clear` leaves
the file holding the object whose `ips` member is `null`. -/
theorem store_document (env : Env) (w : World) (r : IPInfo) (hw : env.writeFails = none) :
    (saveIPInfo env r w).file =
      some (encodeIPList { IPs := some ((loadIPList env w).1.records ++ [r]) }) ∧
    parse (encodeIPList { IPs := some ((loadIPList env w).1.records ++ [r]) }) =
      some (Value.object [(ascii "ips",
        Value.array (((loadIPList env w).1.records ++ [r]).map recordValue))]) ∧
    (((loadIPList env w).1.records ++ [r]).map recordValue).length =
      (loadIPList env w).1.records.length + 1 ∧
    (clearIPList env w).2.file = some (ascii "\x7b\n  \"ips\": null\n\x7d") ∧
    parse (ascii "\x7b\n  \"ips\": null\n\x7d") =
      some (Value.object [(ascii "ips", Value.null)]) := by
  have e : encodeIPList {} = ascii "\x7b\n  \"ips\": null\n\x7d" := by decide
  refine ⟨saveIPInfo_file env hw r w, parse_encodeIPList _, by simp, ?_, ?_⟩
  · simp only [clearIPList, marshalIndent, writeFile, hw, e]
  · rw [← e]; exact parse_encodeIPList {}

set_option maxRecDepth 1000000 in
/-- C7, witness: the document written for the first record of the scenario, byte for
byte. -/
theorem store_document_witness :
    stubEnv.writeFails = none ∧
    (saveIPInfo stubEnv (trackedRecord (ascii "8.8.8.8") stubDecoded) {}).file =
      some (ascii ("\x7b\n  \"ips\": [\n    \x7b\n      \"ip\": \"8.8.8.8\",\n" ++
        "      \"city\": \"Mountain View\",\n      \"region\": \"CA\",\n" ++
        "      \"country\": \"US\",\n      \"location\": \"Mountain View, CA, US\",\n" ++
        "      \"isp\": \"Google\"\n    \x7d\n  ]\n\x7d")) ∧
    parse (encodeIPList { IPs := some ((loadIPList stubEnv {}).1.records ++
        [trackedRecord (ascii "8.8.8.8") stubDecoded]) }) =
      some (Value.object [(ascii "ips",
        Value.array (((loadIPList stubEnv {}).1.records ++
          [trackedRecord (ascii "8.8.8.8") stubDecoded]).map recordValue))]) :=
  ⟨rfl, by decide,
    (store_document stubEnv {} (trackedRecord (ascii "8.8.8.8") stubDecoded) rfl).2.1⟩

set_option maxRecDepth 1000000 in
/-- C8, the code at the failing input: one argument, a successful fetch and a failing
write.  The write diagnostic is printed, nothing is written, and the success message is
printed all the same. -/
theorem track_prints_success_after_failed_write :
    trackCmd failingWriteEnv [ascii "8.8.8.8"] {} =
      { file := none
        out := [.printlnErr "Failed to write IP information to file:" (.pathError 13),
                .println "IP information saved successfully."]
        requests := [ascii "http://ip-api.com/json/8.8.8.8"]
        writes := 1 } := by
  decide

/-- C9: `loadIPList` always returns a collection and leaves the file as it is.  With the
file absent or unreadable it returns the empty collection and prints nothing; with
content that does not decode it prints the diagnostic and returns the empty collection;
otherwise it returns the decoded collection, which for a document written by
`saveIPInfo` from valid UTF-8 is the collection that was written, in its order.  So a
successful `track` on a store that does not decode leaves a file that holds the new
record only. -/
theorem loadIPList_never_fails (env : Env) (w : World) :
    (loadIPList env w).2.file = w.file ∧
    ((env.readFails ≠ none ∨ w.file = none) → loadIPList env w = ({}, w)) ∧
    (∀ data e, env.readFails = none → w.file = some data →
      unmarshalIPList data = .error e →
      loadIPList env w = ({}, w.printlnErr "Failed to unmarshal IP list:" e)) ∧
    (∀ data l, env.readFails = none → w.file = some data →
      unmarshalIPList data = .ok l → loadIPList env w = (l, w)) ∧
    (∀ l : IPList, l.Valid → env.readFails = none → w.file = some (encodeIPList l) →
      loadIPList env w = (l, w)) ∧
    (∀ data e ip body d, env.readFails = none → env.writeFails = none →
      w.file = some data → unmarshalIPList data = .error e →
      env.upstream (ascii "http://ip-api.com/json/" ++ ip) = .body body →
      unmarshalIPInfo body = .ok d →
      (trackCmd env [ip] w).file =
        some (encodeIPList { IPs := some [trackedRecord ip d] })) := by
  refine ⟨loadIPList_file env w, ?_, ?_, ?_, ?_, ?_⟩
  · rintro (h | h)
    · cases hr : env.readFails with
      | none => exact absurd hr h
      | some e => exact loadIPList_readFails w hr
    · cases hr : env.readFails with
      | none => exact loadIPList_absent w hr h
      | some e => exact loadIPList_readFails w hr
  · intro data e hr hf hd
    exact loadIPList_undecodable w hr hf hd
  · intro data l hr hf hd
    exact loadIPList_decoded w hr hf hd
  · intro l hl hr hf
    exact loadIPList_decoded w hr hf (unmarshal_encode_of_valid hl)
  · intro data e ip body d hr hwr hf hd hget hdec
    rw [trackCmd_ok w hget hdec]
    have := saveIPInfo_file env hwr (trackedRecord ip d)
      { w with requests := w.requests ++ [ascii "http://ip-api.com/json/" ++ ip] }
    rw [loadIPList_undecodable
      { w with requests := w.requests ++ [ascii "http://ip-api.com/json/" ++ ip] }
      hr hf hd] at this
    exact this

set_option maxRecDepth 1000000 in
/-- C9, witness: a store whose content is not JSON. -/
theorem loadIPList_never_fails_witness :
    loadIPList stubEnv garbageWorld =
      ({}, { file := some (ascii "garbage")
             out := [.printlnErr "Failed to unmarshal IP list:" .syntaxError] }) ∧
    (trackCmd stubEnv [ascii "8.8.8.8"] garbageWorld).file =
      some (encodeIPList { IPs := some [trackedRecord (ascii "8.8.8.8") stubDecoded] }) ∧
    loadIPList stubEnv {} = ({}, {}) :=
  ⟨(loadIPList_never_fails stubEnv garbageWorld).2.2.1 (ascii "garbage") .syntaxError rfl rfl
      (by decide),
    (loadIPList_never_fails stubEnv garbageWorld).2.2.2.2.2 (ascii "garbage") .syntaxError
      (ascii "8.8.8.8") stubBody stubDecoded rfl rfl rfl (by decide) rfl (by decide),
    (loadIPList_never_fails stubEnv {}).2.1 (Or.inr rfl)⟩

theorem appendRows_eq (rs : List IPInfo) : ∀ (t : Table),
    appendRows t rs = { t with rows := t.rows ++ rs.map row } := by
  induction rs with
  | nil => intro t; simp [appendRows]
  | cons r rs ih => intro t; simp [appendRows, ih]

/-- C10: `renderTable` hands the table the header IP, City, Region, Country, ISP,
Location, no border, and one row of six cells for each record, in the order of the
collection; `list` prints the empty-list message for a collection of length 0 and calls
`renderTable` otherwise. -/
theorem renderTable_rows (env : Env) (ipList : IPList) (w : World) :
    renderTable ipList w =
      { w with out := w.out ++ [.render
          { header := ["IP", "City", "Region", "Country", "ISP", "Location"]
            border := false
            rows := ipList.records.map
              (fun ip => [ip.IP, ip.City, ip.Region, ip.Country, ip.ISP, ip.Location]) }] } ∧
    (ipList.records.map
      (fun ip => [ip.IP, ip.City, ip.Region, ip.Country, ip.ISP, ip.Location])).length =
      ipList.records.length ∧
    listCmd env w =
      if (loadIPList env w).1.records.length = 0 then
        (loadIPList env w).2.println "No tracked IP addresses."
      else renderTable (loadIPList env w).1 (loadIPList env w).2 := by
  refine ⟨?_, by simp, rfl⟩
  simp only [renderTable, appendRows_eq, List.nil_append]
  rfl

end Koppel
